import Mathlib

/-!
Verification development for the gnucashxml library (gnucashxml.py).

The Python module parses a GNU Cash XML document into an in-memory object
graph (Book, Commodity, Account, Transaction, Split) and decodes the "slots"
metadata mini-language.  This file gives a shallow embedding of the module:

* XML element trees are modelled by the inductive `XmlNode`, and the
  `ElementTree` operations used by the module (`find`, `findall` with
  single- and two-segment paths, `get`) are modelled on it.
* Python dictionaries are modelled by association lists with
  insertion-order semantics (`dset` overwrites in place, `dget` looks up,
  `dvalues` lists values in insertion order).
* Python object references are modelled as indices into arenas: the lists
  of built accounts, transactions and splits play the role of the heap, and
  fields such as `Split.account` hold indices.  Two fields holding the same
  index model two references to the same object instance.
* Exceptions are modelled by `Except PyErr`.
* `decimal.Decimal` arithmetic (used by `_parse_number`) is modelled at the
  value level: Python's default decimal context has 28 significant digits
  and ROUND_HALF_EVEN, and `decimalDivQ` returns the rational value of the
  decimal quotient under those rules.
* the external date parser (`dateutil.parser.parse`) is an external
  collaborator of the module; it is passed around as an explicit function
  argument `pd : String → Option Int` (calendar values are modelled as
  integers, which carries their linear order).
-/

/-- Python dictionaries: association lists, key insertion order preserved,
assignment to an existing key overwrites in place. -/
def Dict (κ ν : Type) : Type := List (κ × ν)

def dempty {κ ν : Type} : Dict κ ν := []

/-- Model of `d[k] = v`: overwrite in place if the key is present, else append. -/
def dset {κ ν : Type} [DecidableEq κ] : Dict κ ν → κ → ν → Dict κ ν
  | [], k, v => [(k, v)]
  | (k', v') :: rest, k, v =>
    if k' = k then (k, v) :: rest else (k', v') :: dset rest k v

/-- Model of `d.get(k)` / `d[k]` lookup (the caller turns `none` into KeyError). -/
def dget {κ ν : Type} [DecidableEq κ] (d : Dict κ ν) (k : κ) : Option ν :=
  (d.find? (fun p => decide (p.1 = k))).map (·.2)

/-- Model of `d.values()`, in insertion order. -/
def dvalues {κ ν : Type} (d : Dict κ ν) : List ν := d.map (·.2)

def dkeys {κ ν : Type} (d : Dict κ ν) : List κ := d.map (·.1)

/-- Model of Python `str.split(sep)` for a one-character separator,
working on the character list of the string. -/
def pySplitChar (c : Char) : List Char → List (List Char)
  | [] => [[]]
  | x :: xs =>
    match pySplitChar c xs with
    | [] => [[]]
    | g :: gs => if x = c then [] :: g :: gs else (x :: g) :: gs

/-- Exceptions that the module (or the library calls it makes) can raise. -/
inductive PyErr : Type where
  | attributeError
  | keyError
  | typeError
  | valueError
  | invalidOperation
  | divisionByZero
  | runtimeError (msg : String)
deriving DecidableEq, Repr

/-- XML element: tag (with the `\x7bnamespace-uri\x7d` prefix exactly as
`ElementTree` presents it), attributes, text content, child elements. -/
inductive XmlNode : Type where
  | mk (tag : String) (attrs : List (String × String))
       (text : Option String) (children : List XmlNode)

def XmlNode.tag : XmlNode → String
  | .mk t _ _ _ => t

def XmlNode.attrs : XmlNode → List (String × String)
  | .mk _ a _ _ => a

def XmlNode.text : XmlNode → Option String
  | .mk _ _ tx _ => tx

def XmlNode.children : XmlNode → List XmlNode
  | .mk _ _ _ c => c

/-- Direct children with a given tag, in document order. -/
def childrenTagged (t : String) (n : XmlNode) : List XmlNode :=
  n.children.filter (fun c => decide (c.tag = t))

/-- Model of `ElementTree.Element.findall(path)` for the path shapes the
module uses: each path segment descends one child level, in document order. -/
def findallSegs (n : XmlNode) (segs : List String) : List XmlNode :=
  segs.foldl (fun ns t => ns.flatMap (childrenTagged t)) [n]

/-- Model of `ElementTree.Element.find(path)`: first match of `findall`. -/
def findSegs (n : XmlNode) (segs : List String) : Option XmlNode :=
  (findallSegs n segs).head?

/-- Model of `elt.find(tag)` for a single-segment path. -/
def findTag (n : XmlNode) (t : String) : Option XmlNode :=
  n.children.find? (fun c => decide (c.tag = t))

/-- Model of `node.get(key, default)` on attributes. -/
def pyGet (n : XmlNode) (k dflt : String) : String :=
  ((n.attrs.find? (fun p => decide (p.1 = k))).map (·.2)).getD dflt

/-- Model of `x.text` where `x` may be `None` (raising AttributeError). -/
def textOf : Option XmlNode → Except PyErr (Option String)
  | none => .error .attributeError
  | some n => .ok n.text

/-! ### The decimal arithmetic used by `_parse_number`

`_parse_number` computes `decimal.Decimal(num) / decimal.Decimal(denum)`.
Python's default decimal context has 28 significant digits and rounding
ROUND_HALF_EVEN.  The division result is the exact quotient whenever that
is representable with at most 28 significant digits, and otherwise the
quotient rounded half-even to 28 significant digits.  `decimalDivQ` models
the rational value of that result for integer operands. -/

/-- Decimal digit count, by fuel-guarded repeated division (fuel `n` is
always sufficient since a number has at most `n` digits). -/
def ndAux : Nat → Nat → Nat
  | 0, _ => 0
  | f + 1, m => if m = 0 then 0 else ndAux f (m / 10) + 1

/-- Number of decimal digits of `n` (0 for 0). -/
def nd (n : Nat) : Nat := ndAux n n

/-- Adjusted exponent of the quotient `a / b` of two positive naturals:
the unique `e` with `10 ^ e ≤ a / b < 10 ^ (e + 1)`. -/
def decAdjExp (a b : Nat) : Int :=
  let la : Int := (nd a : Int) - 1
  let lb : Int := (nd b : Int) - 1
  if b * 10 ^ (nd a - 1) ≤ a * 10 ^ (nd b - 1) then la - lb else la - lb - 1

/-- Value of `decimal.Decimal(n) / decimal.Decimal(d)` (for `d ≠ 0`) under the
default context: exact when the quotient needs at most 28 significant decimal
digits, otherwise rounded half-even to 28 significant digits.  The magnitude
of the quotient scaled by `10 ^ (27 - e)` is the fraction `sn / sd` below,
with `e` the adjusted exponent; the computation stays in `Nat`/`Int`
arithmetic so that it is kernel-computable. -/
def decK (n d : Int) : Int := 27 - decAdjExp n.natAbs d.natAbs

/-- Numerator of the scaled quotient magnitude `|n / d| * 10 ^ decK`. -/
def decSn (n d : Int) : Nat :=
  if 0 ≤ decK n d then n.natAbs * 10 ^ (decK n d).toNat else n.natAbs

/-- Denominator of the scaled quotient magnitude `|n / d| * 10 ^ decK`. -/
def decSd (n d : Int) : Nat :=
  if 0 ≤ decK n d then d.natAbs else d.natAbs * 10 ^ (-(decK n d)).toNat

/-- The 28-digit coefficient: the scaled magnitude rounded half-to-even. -/
def decRound (n d : Int) : Nat :=
  let f := decSn n d / decSd n d
  let r := decSn n d % decSd n d
  if 2 * r < decSd n d then f
  else if decSd n d < 2 * r then f + 1
  else if f % 2 = 0 then f else f + 1

/-- Sign of the quotient. -/
def decSgn (n d : Int) : Int := if (0 ≤ n) = (0 ≤ d) then 1 else -1

def decimalDivQ (n d : Int) : ℚ :=
  if n = 0 then 0
  else if decSn n d % decSd n d = 0 then mkRat (if 0 ≤ d then n else -n) d.natAbs
  else if 0 ≤ decK n d then mkRat (decSgn n d * decRound n d) (10 ^ (decK n d).toNat)
  else ((decSgn n d * decRound n d * 10 ^ (-(decK n d)).toNat : Int) : ℚ)

/-- Digits-with-optional-sign integer literal, as accepted by the
`decimal.Decimal` string constructor for the integer tokens that rational
markup values consist of (the constructor also accepts fraction, exponent,
and special forms, which never denote integers and are outside the tokens
quantified over here; on anything malformed it raises InvalidOperation). -/
def digitsValCore : List Char → Nat → Option Nat
  | [], acc => some acc
  | c :: cs, acc =>
    if '0' ≤ c ∧ c ≤ '9' then digitsValCore cs (acc * 10 + (c.toNat - '0'.toNat))
    else none

/-- Value of a nonempty all-digits string. -/
def digitsVal (l : List Char) : Option Nat :=
  if l = [] then none else digitsValCore l 0

def pyDecimalInt (s : List Char) : Option Int :=
  match s with
  | [] => (digitsVal []).map (fun v => (v : Int))
  | c :: rest =>
    if c = '+' then (digitsVal rest).map (fun v => (v : Int))
    else if c = '-' then (digitsVal rest).map (fun v => -(v : Int))
    else (digitsVal (c :: rest)).map (fun v => (v : Int))

/-- Model of `_parse_number`: split on `/` (unpacking to exactly two parts,
else ValueError), build two decimals (InvalidOperation on malformed
literals), divide (DivisionByZero for `x/0` with `x ≠ 0`, InvalidOperation
for `0/0`). -/
def _parse_number (s : List Char) : Except PyErr ℚ :=
  match pySplitChar '/' s with
  | [num, denum] =>
    match pyDecimalInt num with
    | none => .error .invalidOperation
    | some n =>
      match pyDecimalInt denum with
      | none => .error .invalidOperation
      | some d =>
        if d = 0 then
          if n = 0 then .error .invalidOperation else .error .divisionByZero
        else .ok (decimalDivQ n d)
  | _ => .error .valueError

/-- Abstraction used by the specification: its FormatError class covers the
concrete exceptions raised for structurally malformed rational tokens
(ValueError from unpacking, InvalidOperation from the Decimal constructor). -/
def isFormatError : PyErr → Bool
  | .valueError => true
  | .invalidOperation => true
  | _ => false

/-! ### Slots: the typed key/value metadata mini-language -/

/-- Decoded slot values: a recursive tagged variant.  `txt` covers both the
`string` and `guid` slot types (the module stores the raw text for both);
dates and timestamps are calendar values from the external date parser. -/
inductive SlotValue : Type where
  | int (i : Int)
  | num (q : ℚ)
  | txt (s : Option String)
  | date (d : Int)
  | frame (m : List (Option String × SlotValue))

/-- Slot mappings: Python dict from key text to decoded value. -/
abbrev SlotMap : Type := Dict (Option String) SlotValue

/-- Model of Python 2 `long(text)` on the text of a slot value node:
`TypeError` on a missing text, `ValueError` on a malformed literal
(`pyDecimalInt` is exactly the optional-sign-and-digits integer grammar). -/
def pyLong : Option String → Except PyErr Int
  | none => .error .typeError
  | some s =>
    match pyDecimalInt s.data with
    | none => .error .valueError
    | some i => .ok i

/-- Namespace URI prefixes, exactly as the module spells them. -/
def nsGnc : String := "\x7bhttp://www.gnucash.org/XML/gnc\x7d"

def nsBook : String := "\x7bhttp://www.gnucash.org/XML/book\x7d"

def nsCmdty : String := "\x7bhttp://www.gnucash.org/XML/cmdty\x7d"

def nsAct : String := "\x7bhttp://www.gnucash.org/XML/act\x7d"

def nsTrn : String := "\x7bhttp://www.gnucash.org/XML/trn\x7d"

def nsTs : String := "\x7bhttp://www.gnucash.org/XML/ts\x7d"

def nsSplit : String := "\x7bhttp://www.gnucash.org/XML/split\x7d"

def nsSlot : String := "\x7bhttp://www.gnucash.org/XML/slot\x7d"

theorem sizeOf_children_lt (n : XmlNode) : sizeOf n.children < sizeOf n := by
  cases n with
  | mk t a tx c => simp [XmlNode.children]; try omega

theorem sizeOf_filter_le {α : Type} [SizeOf α] (p : α → Bool) (l : List α) :
    sizeOf (l.filter p) ≤ sizeOf l := by
  induction l with
  | nil => simp
  | cons a l ih =>
    rw [List.filter_cons]
    by_cases h : p a <;> simp [h] <;> omega

theorem sizeOf_childrenTagged_lt (t : String) (n : XmlNode) :
    sizeOf (childrenTagged t n) < sizeOf n :=
  lt_of_le_of_lt (sizeOf_filter_le _ _) (sizeOf_children_lt n)

theorem sizeOf_of_findTag {n : XmlNode} {t : String} {v : XmlNode}
    (h : findTag n t = some v) : sizeOf v < sizeOf n := by
  have hv : v ∈ n.children := List.mem_of_find?_eq_some h
  exact lt_trans (List.sizeOf_lt_of_mem hv) (sizeOf_children_lt n)

mutual

/-- Model of the loop body of `_slots_from_tree` for one `slot` element:
read the key text, locate the value node, dispatch on its `type` attribute.
An unknown type raises `RuntimeError("Unknown slot type {}".format(type_))`. -/
def decodeSlotElem (pd : String → Option Int) (elt : XmlNode) :
    Except PyErr (Option String × SlotValue) :=
  match textOf (findTag elt (nsSlot ++ "key")) with
  | .error e => .error e
  | .ok key =>
    match h : findTag elt (nsSlot ++ "value") with
    | none => .error .attributeError
    | some value =>
      let type_ := pyGet value "type" "string"
      if type_ = "integer" then
        match pyLong value.text with
        | .error e => .error e
        | .ok i => .ok (key, .int i)
      else if type_ = "numeric" then
        match value.text with
        | none => .error .attributeError
        | some s =>
          match _parse_number s.data with
          | .error e => .error e
          | .ok q => .ok (key, .num q)
      else if type_ = "string" ∨ type_ = "guid" then
        .ok (key, .txt value.text)
      else if type_ = "gdate" then
        match textOf (findTag value "gdate") with
        | .error e => .error e
        | .ok none => .error .typeError
        | .ok (some s) =>
          match pd s with
          | none => .error .valueError
          | some dt => .ok (key, .date dt)
      else if type_ = "timespec" then
        match textOf (findTag value (nsTs ++ "date")) with
        | .error e => .error e
        | .ok none => .error .typeError
        | .ok (some s) =>
          match pd s with
          | none => .error .valueError
          | some dt => .ok (key, .date dt)
      else if type_ = "frame" then
        match slotsNode pd value with
        | .error e => .error e
        | .ok m => .ok (key, .frame m)
      else .error (.runtimeError ("Unknown slot type " ++ type_))
termination_by sizeOf elt
decreasing_by
  simp_wf
  exact sizeOf_of_findTag h

/-- Model of the `for elt in tree.findall("slot")` loop of `_slots_from_tree`,
threading the dict being built. -/
def slotElems (pd : String → Option Int) :
    List XmlNode → SlotMap → Except PyErr SlotMap
  | [], acc => .ok acc
  | elt :: rest, acc =>
    match decodeSlotElem pd elt with
    | .error e => .error e
    | .ok (k, v) => slotElems pd rest (dset acc k v)
termination_by l acc => sizeOf l
decreasing_by
  all_goals simp_wf
  all_goals try simp
  all_goals omega

/-- Model of `_slots_from_tree` on a present container node. -/
def slotsNode (pd : String → Option Int) (t : XmlNode) : Except PyErr SlotMap :=
  slotElems pd (childrenTagged "slot" t) dempty
termination_by sizeOf t
decreasing_by
  simp_wf
  exact sizeOf_childrenTagged_lt _ _

end

/-- Model of `_slots_from_tree`: a missing container yields an empty dict. -/
def _slots_from_tree (pd : String → Option Int) : Option XmlNode → Except PyErr SlotMap
  | none => .ok dempty
  | some t => slotsNode pd t

/-! ### The object graph

Objects live in arenas (lists in creation order); object references are
indices into them.  `PBook` holds the arenas of its accounts, transactions
and splits, which embed the Python heap reachable from a `Book`. -/

structure PCommodity : Type where
  name : Option String
  space : Option String
deriving DecidableEq, Repr

structure PAccount : Type where
  name : Option String
  guid : Option String
  actype : Option String
  description : Option String
  parent : Option Nat
  children : List Nat
  commodity : Option Nat
  commodity_scu : Option String
  splits : List Nat
  slots : SlotMap

structure PTransaction : Type where
  guid : Option String
  currency : Nat
  date : Int
  date_entered : Int
  description : Option String
  splits : List Nat
  slots : SlotMap

structure PSplit : Type where
  guid : Option String
  memo : Option String
  reconciled_state : Option String
  reconcile_date : Option Int
  value : ℚ
  quantity : ℚ
  account : Nat
  transaction : Nat
  slots : SlotMap

structure PBook : Type where
  guid : Option String
  root_account : Option Nat
  commodities : List PCommodity
  accounts : List PAccount
  transactions : List PTransaction
  splits : List PSplit
  slots : SlotMap

def dfltPAccount : PAccount :=
  ⟨none, none, none, none, none, [], none, none, [], dempty⟩

/-- Model of the external date parser applied to a value that may be `None`
(`TypeError`) and may fail to parse (`ValueError`). -/
def parseDateE (pd : String → Option Int) : Option String → Except PyErr Int
  | none => .error .typeError
  | some s =>
    match pd s with
    | none => .error .valueError
    | some dt => .ok dt

/-- Model of `_commodity_from_tree`. -/
def _commodity_from_tree (tree : XmlNode) : Except PyErr PCommodity :=
  match textOf (findTag tree (nsCmdty ++ "id")) with
  | .error e => .error e
  | .ok name =>
    match textOf (findTag tree (nsCmdty ++ "space")) with
    | .error e => .error e
    | .ok space => .ok ⟨name, space⟩

/-- Model of `_account_from_tree`: returns the raw parent guid (deferred
linking) and the built account, with the owning commodity resolved through
the commodity lookup table (a missing entry is a KeyError). -/
def _account_from_tree (pd : String → Option Int)
    (commoditydict : Dict (Option String × Option String) Nat) (tree : XmlNode) :
    Except PyErr (Option String × PAccount) :=
  match textOf (findTag tree (nsAct ++ "name")) with
  | .error e => .error e
  | .ok name =>
  match textOf (findTag tree (nsAct ++ "id")) with
  | .error e => .error e
  | .ok guid =>
  match textOf (findTag tree (nsAct ++ "type")) with
  | .error e => .error e
  | .ok actype =>
  let description := (findTag tree (nsAct ++ "description")).bind XmlNode.text
  match _slots_from_tree pd (findTag tree (nsAct ++ "slots")) with
  | .error e => .error e
  | .ok slots =>
  if actype = some "ROOT" then
    .ok (none, ⟨name, guid, actype, description, none, [], none, none, [], slots⟩)
  else
    match textOf (findTag tree (nsAct ++ "parent")) with
    | .error e => .error e
    | .ok parent_guid =>
    match textOf (findSegs tree [nsAct ++ "commodity", nsCmdty ++ "space"]) with
    | .error e => .error e
    | .ok commodity_space =>
    match textOf (findSegs tree [nsAct ++ "commodity", nsCmdty ++ "id"]) with
    | .error e => .error e
    | .ok commodity_name =>
    match textOf (findTag tree (nsAct ++ "commodity-scu")) with
    | .error e => .error e
    | .ok commodity_scu =>
    match dget commoditydict (commodity_space, commodity_name) with
    | none => .error .keyError
    | some commodity =>
      .ok (parent_guid,
        ⟨name, guid, actype, description, none, [], some commodity, commodity_scu,
         [], slots⟩)

/-- Model of `_split_from_tree`: builds one split, resolves its account
through the account table, and cross-registers the split in that account's
split list (the account arena is returned updated). -/
def _split_from_tree (pd : String → Option Int) (accountdict : Dict (Option String) Nat)
    (tIdx : Nat) (accs : List PAccount) (sps : List PSplit) (tree : XmlNode) :
    Except PyErr (List PAccount × List PSplit × Nat) :=
  match textOf (findTag tree (nsSplit ++ "id")) with
  | .error e => .error e
  | .ok guid =>
  let memo := (findTag tree (nsSplit ++ "memo")).bind XmlNode.text
  match textOf (findTag tree (nsSplit ++ "reconciled-state")) with
  | .error e => .error e
  | .ok reconciled_state =>
  match (match findSegs tree [nsSplit ++ "reconcile-date", nsTs ++ "date"] with
         | none => .ok none
         | some nd' =>
           match parseDateE pd nd'.text with
           | .error e => .error e
           | .ok dt => .ok (some dt) : Except PyErr (Option Int)) with
  | .error e => .error e
  | .ok reconcile_date =>
  match textOf (findTag tree (nsSplit ++ "value")) with
  | .error e => .error e
  | .ok none => .error .attributeError
  | .ok (some vtext) =>
  match _parse_number vtext.data with
  | .error e => .error e
  | .ok value =>
  match textOf (findTag tree (nsSplit ++ "quantity")) with
  | .error e => .error e
  | .ok none => .error .attributeError
  | .ok (some qtext) =>
  match _parse_number qtext.data with
  | .error e => .error e
  | .ok quantity =>
  match textOf (findTag tree (nsSplit ++ "account")) with
  | .error e => .error e
  | .ok account_guid =>
  match dget accountdict account_guid with
  | none => .error .keyError
  | some account =>
  match _slots_from_tree pd (findTag tree (nsSplit ++ "slots")) with
  | .error e => .error e
  | .ok slots =>
    let sIdx := sps.length
    let sp : PSplit :=
      ⟨guid, memo, reconciled_state, reconcile_date, value, quantity, account,
       tIdx, slots⟩
    let a := accs.getD account dfltPAccount
    .ok (accs.set account { a with splits := a.splits ++ [sIdx] }, sps ++ [sp], sIdx)

/-- Model of the `for subtree in tree.findall(trn:splits/trn:split)` loop of
`_transaction_from_tree`, accumulating the built split indices. -/
def txnSplitsGo (pd : String → Option Int) (accountdict : Dict (Option String) Nat)
    (tIdx : Nat) :
    List XmlNode → List PAccount → List PSplit → List Nat →
    Except PyErr (List PAccount × List PSplit × List Nat)
  | [], accs, sps, ids => .ok (accs, sps, ids)
  | sub :: rest, accs, sps, ids =>
    match _split_from_tree pd accountdict tIdx accs sps sub with
    | .error e => .error e
    | .ok (accs', sps', sIdx) => txnSplitsGo pd accountdict tIdx rest accs' sps' (ids ++ [sIdx])

/-- Model of `_transaction_from_tree`: resolves the currency through the
commodity table, parses both dates, then builds and registers the splits. -/
def _transaction_from_tree (pd : String → Option Int)
    (commoditydict : Dict (Option String × Option String) Nat)
    (accountdict : Dict (Option String) Nat)
    (accs : List PAccount) (txns : List PTransaction) (sps : List PSplit)
    (tree : XmlNode) :
    Except PyErr (List PAccount × List PTransaction × List PSplit) :=
  match textOf (findTag tree (nsTrn ++ "id")) with
  | .error e => .error e
  | .ok guid =>
  match textOf (findSegs tree [nsTrn ++ "currency", nsCmdty ++ "space"]) with
  | .error e => .error e
  | .ok currency_space =>
  match textOf (findSegs tree [nsTrn ++ "currency", nsCmdty ++ "id"]) with
  | .error e => .error e
  | .ok currency_name =>
  match dget commoditydict (currency_space, currency_name) with
  | none => .error .keyError
  | some currency =>
  match (match findSegs tree [nsTrn ++ "date-posted", nsTs ++ "date"] with
         | none => .error .attributeError
         | some nd' => parseDateE pd nd'.text : Except PyErr Int) with
  | .error e => .error e
  | .ok date =>
  match (match findSegs tree [nsTrn ++ "date-entered", nsTs ++ "date"] with
         | none => .error .attributeError
         | some nd' => parseDateE pd nd'.text : Except PyErr Int) with
  | .error e => .error e
  | .ok date_entered =>
  match textOf (findTag tree (nsTrn ++ "description")) with
  | .error e => .error e
  | .ok description =>
  match _slots_from_tree pd (findTag tree (nsTrn ++ "slots")) with
  | .error e => .error e
  | .ok slots =>
    let tIdx := txns.length
    match txnSplitsGo pd accountdict tIdx
        (findallSegs tree [nsTrn ++ "splits", nsTrn ++ "split"]) accs sps [] with
    | .error e => .error e
    | .ok (accs', sps', ids) =>
      let txn : PTransaction :=
        ⟨guid, currency, date, date_entered, description, ids, slots⟩
      .ok (accs', txns ++ [txn], sps')

/-! ### The book assembler -/

/-- Commodity pass of `_book_from_tree`: build every commodity in document
order, appending each to the book's commodity list and recording it in the
`(space, name)` lookup table (the value is the arena index of the object,
so a later duplicate key overwrites the table entry but not the list). -/
def buildCommoditiesGo :
    List XmlNode → List PCommodity → Dict (Option String × Option String) Nat →
    Except PyErr (List PCommodity × Dict (Option String × Option String) Nat)
  | [], cs, cd => .ok (cs, cd)
  | n :: rest, cs, cd =>
    match _commodity_from_tree n with
    | .error e => .error e
    | .ok comm => buildCommoditiesGo rest (cs ++ [comm]) (dset cd (comm.space, comm.name) cs.length)

def buildCommodities (nodes : List XmlNode) :
    Except PyErr (List PCommodity × Dict (Option String × Option String) Nat) :=
  buildCommoditiesGo nodes [] dempty

/-- Account pass of `_book_from_tree`: build every account in document
order into the account arena, record guid → account and guid → raw parent
guid, and remember the (last) `ROOT`-typed account as the root. -/
def buildAccountsGo (pd : String → Option Int)
    (commoditydict : Dict (Option String × Option String) Nat) :
    List XmlNode →
    List PAccount → Dict (Option String) Nat → Dict (Option String) (Option String) →
    Option Nat →
    Except PyErr
      (List PAccount × Dict (Option String) Nat × Dict (Option String) (Option String) ×
       Option Nat)
  | [], accs, ad, pdict, root => .ok (accs, ad, pdict, root)
  | n :: rest, accs, ad, pdict, root =>
    match _account_from_tree pd commoditydict n with
    | .error e => .error e
    | .ok (pg, acc) =>
      let i := accs.length
      let root' := if acc.actype = some "ROOT" then some i else root
      buildAccountsGo pd commoditydict rest (accs ++ [acc]) (dset ad acc.guid i)
        (dset pdict acc.guid pg) root'

def buildAccounts (pd : String → Option Int)
    (commoditydict : Dict (Option String × Option String) Nat) (nodes : List XmlNode) :
    Except PyErr
      (List PAccount × Dict (Option String) Nat × Dict (Option String) (Option String) ×
       Option Nat) :=
  buildAccountsGo pd commoditydict nodes [] dempty dempty none

/-- One step of the second (linking) pass of `_book_from_tree` for the
account at arena index `i`: if its parent link is unset and it is not the
root, resolve its raw parent guid through the two tables, set the parent
reference and append the child to the parent's children list. -/
def linkStep (ad : Dict (Option String) Nat) (pdict : Dict (Option String) (Option String))
    (accs : List PAccount) (i : Nat) : Except PyErr (List PAccount) :=
  let acc := accs.getD i dfltPAccount
  if acc.parent = none ∧ acc.actype ≠ some "ROOT" then
    match dget pdict acc.guid with
    | none => .error .keyError
    | some pg =>
      match dget ad pg with
      | none => .error .keyError
      | some j =>
        let accs1 := accs.set i { acc with parent := some j }
        let pa := accs1.getD j dfltPAccount
        .ok (accs1.set j { pa with children := pa.children ++ [i] })
  else .ok accs

/-- Second pass of `_book_from_tree` over `accountdict.values()`. -/
def linkGo (ad : Dict (Option String) Nat) (pdict : Dict (Option String) (Option String)) :
    List Nat → List PAccount → Except PyErr (List PAccount)
  | [], accs => .ok accs
  | i :: rest, accs =>
    match linkStep ad pdict accs i with
    | .error e => .error e
    | .ok accs' => linkGo ad pdict rest accs'

def linkAccounts (accs : List PAccount) (ad : Dict (Option String) Nat)
    (pdict : Dict (Option String) (Option String)) : Except PyErr (List PAccount) :=
  linkGo ad pdict (dvalues ad) accs

/-- Transaction pass of `_book_from_tree`, in document order. -/
def buildTransactionsGo (pd : String → Option Int)
    (commoditydict : Dict (Option String × Option String) Nat)
    (accountdict : Dict (Option String) Nat) :
    List XmlNode → List PAccount → List PTransaction → List PSplit →
    Except PyErr (List PAccount × List PTransaction × List PSplit)
  | [], accs, txns, sps => .ok (accs, txns, sps)
  | n :: rest, accs, txns, sps =>
    match _transaction_from_tree pd commoditydict accountdict accs txns sps n with
    | .error e => .error e
    | .ok (accs', txns', sps') =>
      buildTransactionsGo pd commoditydict accountdict rest accs' txns' sps'

/-- Model of `_book_from_tree`. -/
def _book_from_tree (pd : String → Option Int) (tree : XmlNode) : Except PyErr PBook :=
  match textOf (findTag tree (nsBook ++ "id")) with
  | .error e => .error e
  | .ok guid =>
  match buildCommodities (childrenTagged (nsGnc ++ "commodity") tree) with
  | .error e => .error e
  | .ok (commodities, commoditydict) =>
  match buildAccounts pd commoditydict (childrenTagged (nsGnc ++ "account") tree) with
  | .error e => .error e
  | .ok (accs, accountdict, parentdict, root_account) =>
  match linkAccounts accs accountdict parentdict with
  | .error e => .error e
  | .ok accs' =>
  match buildTransactionsGo pd commoditydict accountdict
      (childrenTagged (nsGnc ++ "transaction") tree) accs' [] [] with
  | .error e => .error e
  | .ok (accs2, transactions, splits) =>
  match _slots_from_tree pd (findTag tree (nsBook ++ "slots")) with
  | .error e => .error e
  | .ok slots =>
    .ok ⟨guid, root_account, commodities, accs2, transactions, splits, slots⟩

/-- Model of `parse`: check the root tag, locate the book node. -/
def parse (pd : String → Option Int) (root : XmlNode) : Except PyErr PBook :=
  if root.tag ≠ "gnc-v2" then .error .valueError
  else
    match findTag root (nsGnc ++ "book") with
    | none => .error .attributeError
    | some bookTree => _book_from_tree pd bookTree

/-! ### The graph model: traversal and split ordering -/

def childIdsOf (bk : PBook) (i : Nat) : List Nat :=
  ((bk.accounts.get? i).map PAccount.children).getD []

def splitIdsOf (bk : PBook) (i : Nat) : List Nat :=
  ((bk.accounts.get? i).map PAccount.splits).getD []

/-- Model of the queue loop of `Account.walk`: dequeue an account, yield
`(account, copy of its children list, its splits)`, enqueue the children.
The generator is modelled as the finite list of the triples it yields; the
fuel bound `bk.accounts.length` covers every tree-shaped store — the queue
dequeues each account of the walked subtree exactly once (on a malformed,
cyclic store the Python generator does not terminate). -/
def walkAux (bk : PBook) : Nat → List Nat → List (Nat × List Nat × List Nat)
  | 0, _ => []
  | _ + 1, [] => []
  | fuel + 1, a :: rest =>
    (a, childIdsOf bk a, splitIdsOf bk a) :: walkAux bk fuel (rest ++ childIdsOf bk a)

/-- Model of `Account.walk` from the account at index `i`. -/
def walk (bk : PBook) (i : Nat) : List (Nat × List Nat × List Nat) :=
  walkAux bk bk.accounts.length [i]

/-- Date of the transaction owning a split: `Split.__lt__` delegates to
`Transaction.__lt__`, which compares posting dates. -/
def txnDateOfSplit (bk : PBook) (s : Nat) : Int :=
  ((bk.transactions.get? (((bk.splits.get? s).map PSplit.transaction).getD 0)).map
    PTransaction.date).getD 0

/-- Model of `Split.__lt__` between two splits of the store (it returns
`self.transaction < other.transaction`, and `Transaction.__lt__` returns
`self.date < other.date`). -/
def splitLt (bk : PBook) (s t : Nat) : Bool :=
  txnDateOfSplit bk s < txnDateOfSplit bk t

/-- Stable insertion of `x` into `l`: `x` goes before the first element
that is not `<` it, i.e. after every earlier-inserted element it ties with. -/
def insOrd {α : Type} (lt : α → α → Bool) (x : α) : List α → List α
  | [] => [x]
  | y :: ys => if lt y x then y :: insOrd lt x ys else x :: y :: ys

/-- Model of Python `sorted(l)`: the stable ascending sort determined by the
`<` comparisons (Python's Timsort and this insertion sort agree extensionally,
both being stable with respect to the strict weak order `lt`). -/
def pySorted {α : Type} (lt : α → α → Bool) (l : List α) : List α :=
  l.foldr (insOrd lt) []

/-- Model of `Account.get_all_splits`: concatenate the splits of every
triple yielded by `walk`, then sort. -/
def get_all_splits (bk : PBook) (i : Nat) : List Nat :=
  pySorted (splitLt bk) ((walk bk i).foldl (fun l trip => l ++ trip.2.2) [])

/-! ### Verification infrastructure: tree-shaped stores

`AccTree` witnesses that the children graph of a store is a finite tree:
`matchesTree bk T` states that the arena's children lists agree with `T`
everywhere below its root.  The breadth-first traversal of such a witness
(`idsBFS`, and its level-by-level description `levelsFlat`) describes the
output of `walk`. -/

inductive AccTree : Type where
  | node (id : Nat) (children : List AccTree)

def AccTree.rootId : AccTree → Nat
  | .node i _ => i

def AccTree.subs : AccTree → List AccTree
  | .node _ cs => cs

mutual

def treeIds : AccTree → List Nat
  | .node i cs => i :: forestIds cs

def forestIds : List AccTree → List Nat
  | [] => []
  | t :: ts => treeIds t ++ forestIds ts

end

mutual

def matchesTree (bk : PBook) : AccTree → Bool
  | .node i cs =>
    match bk.accounts.get? i with
    | none => false
    | some a => (a.children == cs.map AccTree.rootId) && matchesForest bk cs

def matchesForest (bk : PBook) : List AccTree → Bool
  | [] => true
  | t :: ts => matchesTree bk t && matchesForest bk ts

end

/-- Children forest of a queue of trees: the next breadth-first level. -/
def nextLevel (q : List AccTree) : List AccTree :=
  q.flatMap AccTree.subs

theorem forestIds_append (a b : List AccTree) :
    forestIds (a ++ b) = forestIds a ++ forestIds b := by
  induction a with
  | nil => simp [forestIds]
  | cons t ts ih => simp [forestIds, ih]

theorem forestIds_length_eq (q : List AccTree) :
    (forestIds q).length = q.length + (forestIds (nextLevel q)).length := by
  induction q with
  | nil => simp [forestIds, nextLevel]
  | cons t ts ih =>
    cases t with
    | node i cs =>
      simp only [forestIds, treeIds, nextLevel, List.flatMap_cons, AccTree.subs,
        forestIds_append, List.length_append, List.length_cons]
      have := ih
      simp only [nextLevel] at this
      omega

/-- Queue-semantics breadth-first listing of the node ids of a forest,
mirroring the loop of `Account.walk`. -/
def idsBFS : List AccTree → List Nat
  | [] => []
  | t :: q => t.rootId :: idsBFS (q ++ t.subs)
termination_by q => (forestIds q).length
decreasing_by
  cases t with
  | node i cs =>
    simp only [forestIds, treeIds, AccTree.subs, forestIds_append, List.length_append,
      List.length_cons]
    omega

/-- Level-by-level listing of the node ids of a forest. -/
def levelsFlat : List AccTree → List Nat
  | [] => []
  | t :: ts => (t :: ts).map AccTree.rootId ++ levelsFlat (nextLevel (t :: ts))
termination_by q => (forestIds q).length
decreasing_by
  have h := forestIds_length_eq (t :: ts)
  simp only [List.length_cons] at h
  omega

def iterLevel : Nat → List AccTree → List AccTree
  | 0, q => q
  | k + 1, q => iterLevel k (nextLevel q)

/-- `s` is a subtree of `t` (possibly `t` itself). -/
inductive SubtreeIn : AccTree → AccTree → Prop where
  | refl (t : AccTree) : SubtreeIn t t
  | step {t c s : AccTree} : c ∈ t.subs → SubtreeIn c s → SubtreeIn t s

/-- `y` is the id of a proper descendant of the node with id `x` in `T`. -/
def ProperDescIn (T : AccTree) (x y : Nat) : Prop :=
  ∃ s, SubtreeIn T s ∧ s.rootId = x ∧
    ∃ c ∈ s.subs, ∃ s', SubtreeIn c s' ∧ s'.rootId = y

/-! ### Verification: the rational parser (claims C1, C5) -/

/-- Quotients representable with at most 28 significant decimal digits:
the exact values the default decimal context can return. -/
def Repr28 (q : ℚ) : Prop :=
  ∃ m k : ℤ, |m| < 10 ^ 28 ∧ q = (m : ℚ) * (10 : ℚ) ^ k

theorem ndAux_zero (f : Nat) : ndAux f 0 = 0 := by
  cases f <;> simp [ndAux]

theorem ndAux_spec (m : Nat) : ∀ f, m ≤ f → m ≠ 0 →
    1 ≤ ndAux f m ∧ 10 ^ (ndAux f m - 1) ≤ m ∧ m < 10 ^ ndAux f m := by
  induction m using Nat.strong_induction_on with
  | _ m ih =>
    intro f hmf hm0
    obtain ⟨f', rfl⟩ : ∃ f', f = f' + 1 := ⟨f - 1, by omega⟩
    rw [ndAux, if_neg hm0]
    by_cases h10 : m < 10
    · rw [Nat.div_eq_of_lt h10, ndAux_zero]
      refine ⟨by omega, by simpa using by omega, by simpa using h10⟩
    · have hdiv : m / 10 ≠ 0 := by omega
      have hlt : m / 10 < m := Nat.div_lt_self (by omega) (by norm_num)
      have hmf' : m / 10 ≤ f' := by omega
      obtain ⟨h1, h2, h3⟩ := ih (m / 10) hlt f' hmf' hdiv
      refine ⟨by omega, ?_, ?_⟩
      · have ha : 10 ^ (ndAux f' (m / 10) - 1) * 10 ≤ m / 10 * 10 :=
          Nat.mul_le_mul_right _ h2
        have hb : 10 ^ (ndAux f' (m / 10) - 1) * 10 = 10 ^ ndAux f' (m / 10) := by
          rw [← pow_succ]
          congr 1
          omega
        have hc : m / 10 * 10 ≤ m := Nat.div_mul_le_self m 10
        simpa using by omega
      · have ha : m / 10 + 1 ≤ 10 ^ ndAux f' (m / 10) := h3
        have hb : m < (m / 10 + 1) * 10 := by
          have h1 := Nat.div_add_mod m 10
          have h2 := Nat.mod_lt m (show 0 < 10 by norm_num)
          omega
        calc m < (m / 10 + 1) * 10 := hb
          _ ≤ 10 ^ ndAux f' (m / 10) * 10 := Nat.mul_le_mul_right _ ha
          _ = 10 ^ (ndAux f' (m / 10) + 1) := by rw [pow_succ]

theorem nd_spec {n : Nat} (h : n ≠ 0) :
    1 ≤ nd n ∧ 10 ^ (nd n - 1) ≤ n ∧ n < 10 ^ nd n :=
  ndAux_spec n n le_rfl h

theorem cross_div_le {p q r s : Nat} (hq : q ≠ 0) (hs : s ≠ 0)
    (h : p * s ≤ r * q) : (p:ℚ) / (q:ℚ) ≤ (r:ℚ) / (s:ℚ) := by
  rw [div_le_div_iff (by exact_mod_cast Nat.pos_of_ne_zero hq)
    (by exact_mod_cast Nat.pos_of_ne_zero hs)]
  exact_mod_cast h

theorem cross_div_lt {p q r s : Nat} (hq : q ≠ 0) (hs : s ≠ 0)
    (h : p * s < r * q) : (p:ℚ) / (q:ℚ) < (r:ℚ) / (s:ℚ) := by
  rw [div_lt_div_iff (by exact_mod_cast Nat.pos_of_ne_zero hq)
    (by exact_mod_cast Nat.pos_of_ne_zero hs)]
  exact_mod_cast h

theorem zpow_sub_natCast (u v : Nat) :
    (10:ℚ) ^ ((u:ℤ) - (v:ℤ)) = ((10 ^ u : Nat) : ℚ) / ((10 ^ v : Nat) : ℚ) := by
  rw [zpow_sub₀ (by norm_num : (10:ℚ) ≠ 0), zpow_natCast, zpow_natCast]
  push_cast
  ring

theorem decAdjExp_bounds {a b : Nat} (ha : a ≠ 0) (hb : b ≠ 0) :
    (10:ℚ) ^ decAdjExp a b ≤ (a:ℚ) / (b:ℚ) ∧
    (a:ℚ) / (b:ℚ) < (10:ℚ) ^ (decAdjExp a b + 1) := by
  obtain ⟨ha1, ha2, ha3⟩ := nd_spec ha
  obtain ⟨hb1, hb2, hb3⟩ := nd_spec hb
  have hpa : (10:Nat) ^ (nd a - 1) ≠ 0 := by positivity
  have hpb : (10:Nat) ^ (nd b - 1) ≠ 0 := by positivity
  have hpa2 : (10:Nat) ^ nd a ≠ 0 := by positivity
  have hpb2 : (10:Nat) ^ nd b ≠ 0 := by positivity
  by_cases hC : b * 10 ^ (nd a - 1) ≤ a * 10 ^ (nd b - 1)
  · have he : decAdjExp a b = ((nd a - 1 : Nat) : ℤ) - ((nd b - 1 : Nat) : ℤ) := by
      simp only [decAdjExp, if_pos hC]
      push_cast
      omega
    have he1 : decAdjExp a b + 1 = ((nd a : Nat) : ℤ) - ((nd b - 1 : Nat) : ℤ) := by
      rw [he]; push_cast; omega
    constructor
    · rw [he, zpow_sub_natCast]
      refine cross_div_le hpb hb ?_
      calc 10 ^ (nd a - 1) * b = b * 10 ^ (nd a - 1) := Nat.mul_comm _ _
        _ ≤ a * 10 ^ (nd b - 1) := hC
    · rw [he1, zpow_sub_natCast]
      refine cross_div_lt hb hpb ?_
      calc a * 10 ^ (nd b - 1) < 10 ^ nd a * 10 ^ (nd b - 1) :=
            (Nat.mul_lt_mul_right (Nat.pos_of_ne_zero hpb)).mpr ha3
        _ ≤ 10 ^ nd a * b := Nat.mul_le_mul_left _ hb2
  · have hC' : a * 10 ^ (nd b - 1) < b * 10 ^ (nd a - 1) := Nat.lt_of_not_le hC
    have he : decAdjExp a b = ((nd a - 1 : Nat) : ℤ) - ((nd b : Nat) : ℤ) := by
      simp only [decAdjExp, if_neg hC]
      push_cast
      omega
    have he1 : decAdjExp a b + 1 = ((nd a - 1 : Nat) : ℤ) - ((nd b - 1 : Nat) : ℤ) := by
      rw [he]; push_cast; omega
    constructor
    · rw [he, zpow_sub_natCast]
      refine cross_div_le hpb2 hb ?_
      calc 10 ^ (nd a - 1) * b ≤ a * b := Nat.mul_le_mul_right _ ha2
        _ ≤ a * 10 ^ nd b := Nat.mul_le_mul_left _ (le_of_lt hb3)
    · rw [he1, zpow_sub_natCast]
      refine cross_div_lt hb hpb ?_
      calc a * 10 ^ (nd b - 1) < b * 10 ^ (nd a - 1) := hC'
        _ = 10 ^ (nd a - 1) * b := Nat.mul_comm _ _

theorem mkRat_signed_eq_div (n d : ℤ) (hd : d ≠ 0) :
    (mkRat (if 0 ≤ d then n else -n) d.natAbs : ℚ) = (n:ℚ) / (d:ℚ) := by
  have hcast : ((d.natAbs : ℕ) : ℚ) = |(d:ℚ)| := by
    simp [Int.cast_natAbs]
  rcases le_or_lt 0 d with h | h
  · rw [if_pos h, Rat.mkRat_eq_div, hcast, abs_of_nonneg (by exact_mod_cast h)]
  · rw [if_neg (not_le.mpr h), Rat.mkRat_eq_div, hcast,
      abs_of_neg (by exact_mod_cast h), div_neg]
    push_cast
    ring

theorem decSd_ne_zero {n d : ℤ} (hd : d ≠ 0) : decSd n d ≠ 0 := by
  have hb : d.natAbs ≠ 0 := by simpa using hd
  unfold decSd
  split
  · exact hb
  · exact Nat.mul_ne_zero hb (by positivity)

theorem abs_div_eq_natAbs (n d : ℤ) :
    |(n:ℚ) / (d:ℚ)| = ((n.natAbs : ℕ) : ℚ) / ((d.natAbs : ℕ) : ℚ) := by
  rw [abs_div]
  congr 1 <;> simp [Int.cast_natAbs]

theorem decScale_eq {n d : ℤ} (hd : d ≠ 0) :
    ((decSn n d : ℕ) : ℚ) / ((decSd n d : ℕ) : ℚ) =
      |(n:ℚ) / (d:ℚ)| * (10:ℚ) ^ decK n d := by
  have hten : (10:ℚ) ≠ 0 := by norm_num
  rw [abs_div_eq_natAbs]
  rcases le_or_lt 0 (decK n d) with hk | hk
  · rw [decSn, decSd, if_pos hk, if_pos hk]
    push_cast
    rw [← zpow_natCast (10:ℚ) (decK n d).toNat, Int.toNat_of_nonneg hk]
    rw [mul_div_right_comm]
  · rw [decSn, decSd, if_neg (not_le.mpr hk), if_neg (not_le.mpr hk)]
    push_cast
    rw [← zpow_natCast (10:ℚ) (-decK n d).toNat, Int.toNat_of_nonneg (by omega)]
    rw [← div_div, div_eq_mul_inv (_ / _), ← zpow_neg, neg_neg]

theorem decScale_lt {n d : ℤ} (hn : n ≠ 0) (hd : d ≠ 0) :
    ((decSn n d : ℕ) : ℚ) / ((decSd n d : ℕ) : ℚ) < (10:ℚ) ^ (28:ℤ) := by
  have ha : n.natAbs ≠ 0 := by simpa using hn
  have hb : d.natAbs ≠ 0 := by simpa using hd
  have hup := (decAdjExp_bounds ha hb).2
  have hgoal : |(n:ℚ) / (d:ℚ)| * (10:ℚ) ^ decK n d < (10:ℚ) ^ (28:ℤ) := by
    rw [abs_div_eq_natAbs]
    calc ((n.natAbs : ℕ) : ℚ) / ((d.natAbs : ℕ) : ℚ) * (10:ℚ) ^ decK n d
        < (10:ℚ) ^ (decAdjExp n.natAbs d.natAbs + 1) * (10:ℚ) ^ decK n d := by
          exact mul_lt_mul_of_pos_right hup (zpow_pos (by norm_num) _)
      _ = (10:ℚ) ^ (28:ℤ) := by
          rw [← zpow_add₀ (by norm_num : (10:ℚ) ≠ 0)]
          congr 1
          rw [decK]
          ring
  rw [decScale_eq hd]
  exact hgoal

theorem dvd_iff_cast_div_nat {p q : ℕ} (hq : q ≠ 0) :
    p % q = 0 ↔ ∃ c : ℕ, (p : ℚ) / (q : ℚ) = (c : ℚ) := by
  constructor
  · intro h
    exact ⟨p / q, (Nat.cast_div (Nat.dvd_of_mod_eq_zero h)
      (by exact_mod_cast hq)).symm⟩
  · rintro ⟨c, hc⟩
    have hq' : ((q : ℕ) : ℚ) ≠ 0 := by exact_mod_cast hq
    have : (p : ℚ) = (c : ℚ) * (q : ℚ) := by
      field_simp at hc
      linarith [hc]
    have hpc : p = c * q := by exact_mod_cast this
    simp [hpc, Nat.mul_mod_left]

theorem decSgn_abs (n d : ℤ) : |(decSgn n d : ℚ)| = 1 := by
  rw [decSgn]
  split <;> simp

theorem decimalDivQ_inexact_abs {n d : ℤ} (hn : n ≠ 0)
    (hex : ¬ decSn n d % decSd n d = 0) :
    |decimalDivQ n d| = ((decRound n d : ℕ) : ℚ) * (10:ℚ) ^ (-(decK n d)) := by
  have hten : (10:ℚ) ≠ 0 := by norm_num
  rcases le_or_lt 0 (decK n d) with hk | hk
  · rw [decimalDivQ, if_neg hn, if_neg hex, if_pos hk, Rat.mkRat_eq_div]
    push_cast
    rw [abs_div, abs_mul, decSgn_abs, one_mul,
      abs_of_nonneg (by positivity : (0:ℚ) ≤ ((decRound n d : ℕ) : ℚ)),
      abs_of_nonneg (by positivity : (0:ℚ) ≤ (10:ℚ) ^ (decK n d).toNat)]
    rw [div_eq_mul_inv, ← zpow_natCast (10:ℚ) (decK n d).toNat,
      Int.toNat_of_nonneg hk, zpow_neg]
  · rw [decimalDivQ, if_neg hn, if_neg hex, if_neg (not_le.mpr hk)]
    push_cast
    rw [abs_mul, abs_mul, decSgn_abs, one_mul,
      abs_of_nonneg (by positivity : (0:ℚ) ≤ ((decRound n d : ℕ) : ℚ)),
      abs_of_nonneg (by positivity : (0:ℚ) ≤ ((10:ℚ) ^ (-decK n d).toNat))]
    congr 1
    rw [← zpow_natCast (10:ℚ) (-decK n d).toNat, Int.toNat_of_nonneg (by omega)]

theorem decimalDivQ_exact_iff (n d : ℤ) (hd : d ≠ 0) :
    decimalDivQ n d = (n:ℚ) / (d:ℚ) ↔ Repr28 ((n:ℚ) / (d:ℚ)) := by
  by_cases hn : n = 0
  · subst hn
    constructor
    · intro _
      exact ⟨0, 0, by norm_num, by push_cast; simp⟩
    · intro _
      simp [decimalDivQ]
  · have ha : n.natAbs ≠ 0 := by simpa using hn
    have hb : d.natAbs ≠ 0 := by simpa using hd
    have hsd : decSd n d ≠ 0 := decSd_ne_zero hd
    have hq0 : (n:ℚ)/(d:ℚ) ≠ 0 :=
      div_ne_zero (by exact_mod_cast hn) (by exact_mod_cast hd)
    have hten : (10:ℚ) ≠ 0 := by norm_num
    have hscale := decScale_eq (n := n) hd
    have hhi := decScale_lt hn hd
    have hrep_dvd : Repr28 ((n:ℚ)/(d:ℚ)) → decSn n d % decSd n d = 0 := by
      rintro ⟨m, kk, hm28, hmq⟩
      have hm0 : m ≠ 0 := by
        rintro rfl
        rw [show ((0:ℤ):ℚ) * (10:ℚ)^kk = 0 by push_cast; ring] at hmq
        exact hq0 hmq
      have habs : |(n:ℚ)/(d:ℚ)| = ((m.natAbs : ℕ) : ℚ) * (10:ℚ)^kk := by
        rw [hmq, abs_mul, abs_of_pos (zpow_pos (by norm_num : (0:ℚ) < 10) kk)]
        congr 1
        have h1 := Int.cast_natAbs (R := ℚ) (n := m)
        rw [h1, Int.cast_abs]
      have hlo := (decAdjExp_bounds ha hb).1
      have hlo' : (10:ℚ) ^ decAdjExp n.natAbs d.natAbs ≤ ((m.natAbs : ℕ):ℚ) * (10:ℚ)^kk := by
        rw [← habs, abs_div_eq_natAbs]
        exact hlo
      have hmlt : ((m.natAbs : ℕ) : ℚ) < (10:ℚ)^(28:ℤ) := by
        have h1 : ((m.natAbs : ℕ) : ℤ) < 10 ^ 28 := by
          rw [Int.natCast_natAbs]
          exact hm28
        have h1' : m.natAbs < 10 ^ 28 := by exact_mod_cast h1
        have h2 : ((m.natAbs : ℕ) : ℚ) < ((10 ^ 28 : ℕ) : ℚ) := by exact_mod_cast h1'
        calc ((m.natAbs : ℕ) : ℚ) < ((10 ^ 28 : ℕ) : ℚ) := h2
          _ = (10:ℚ)^(28:ℤ) := by norm_num
      have hup : ((m.natAbs : ℕ):ℚ) * (10:ℚ)^kk < (10:ℚ)^(kk + 28) := by
        calc ((m.natAbs : ℕ):ℚ) * (10:ℚ)^kk < (10:ℚ)^(28:ℤ) * (10:ℚ)^kk :=
              mul_lt_mul_of_pos_right hmlt (zpow_pos (by norm_num) _)
          _ = (10:ℚ)^(kk + 28) := by rw [← zpow_add₀ hten]; ring_nf
      have he_lt : decAdjExp n.natAbs d.natAbs < kk + 28 :=
        (zpow_lt_zpow_iff_right₀ (by norm_num : (1:ℚ) < 10)).mp
          (lt_of_le_of_lt hlo' hup)
      have hkk : 0 ≤ kk + decK n d := by
        rw [decK]
        omega
      have hnat : ((decSn n d : ℕ):ℚ) / ((decSd n d : ℕ):ℚ)
          = ((m.natAbs * 10 ^ (kk + decK n d).toNat : ℕ) : ℚ) := by
        rw [hscale, habs, mul_assoc, ← zpow_add₀ hten]
        push_cast
        rw [← zpow_natCast (10:ℚ) (kk + decK n d).toNat, Int.toNat_of_nonneg hkk]
      exact (dvd_iff_cast_div_nat hsd).mpr ⟨_, hnat⟩
    by_cases hex : decSn n d % decSd n d = 0
    · have hval : decimalDivQ n d = (n:ℚ)/(d:ℚ) := by
        rw [decimalDivQ, if_neg hn, if_pos hex, mkRat_signed_eq_div n d hd]
      refine ⟨fun _ => ?_, fun _ => hval⟩
      obtain ⟨c, hc⟩ := (dvd_iff_cast_div_nat hsd).mp hex
      have hc28 : ((c : ℕ) : ℤ) < 10 ^ 28 := by
        have h1 : ((c : ℕ) : ℚ) < (10:ℚ)^(28:ℤ) := hc ▸ hhi
        have h2 : (10:ℚ)^(28:ℤ) = ((10 ^ 28 : ℕ) : ℚ) := by norm_num
        rw [h2] at h1
        have h3 : c < 10 ^ 28 := by exact_mod_cast h1
        exact_mod_cast h3
      have habs_val : |(n:ℚ)/(d:ℚ)| = ((c : ℕ):ℚ) * (10:ℚ)^(-(decK n d)) := by
        have h1 : |(n:ℚ)/(d:ℚ)| * (10:ℚ)^(decK n d) = ((c : ℕ):ℚ) := by
          rw [← hscale, hc]
        rw [← h1, zpow_neg, mul_assoc,
          mul_inv_cancel₀ (zpow_ne_zero _ hten), mul_one]
      rcases abs_cases ((n:ℚ)/(d:ℚ)) with ⟨hqa, _⟩ | ⟨hqa, _⟩
      · refine ⟨(c : ℤ), -(decK n d), by simpa using hc28, ?_⟩
        rw [← hqa, habs_val]
        push_cast
        ring
      · refine ⟨-(c : ℤ), -(decK n d), by simpa using hc28, ?_⟩
        have hq_eq : (n:ℚ)/(d:ℚ) = -(((c : ℕ):ℚ) * (10:ℚ)^(-(decK n d))) := by
          rw [← habs_val]
          linarith [hqa]
        rw [hq_eq]
        push_cast
        ring
    · have hlhs : decimalDivQ n d ≠ (n:ℚ)/(d:ℚ) := by
        intro heq
        have hvabs := decimalDivQ_inexact_abs hn hex
        have habs_q : |(n:ℚ)/(d:ℚ)| = ((decRound n d : ℕ):ℚ) * (10:ℚ)^(-(decK n d)) := by
          rw [← heq]
          exact hvabs
        have hnat : ((decSn n d : ℕ):ℚ) / ((decSd n d : ℕ):ℚ) = ((decRound n d : ℕ):ℚ) := by
          rw [hscale, habs_q, mul_assoc, ← zpow_add₀ hten, neg_add_cancel, zpow_zero,
            mul_one]
        exact hex ((dvd_iff_cast_div_nat hsd).mpr ⟨_, hnat⟩)
      exact ⟨fun h => absurd h hlhs, fun hr => absurd (hrep_dvd hr) hex⟩

theorem digitsValCore_mem {l : List Char} {acc v : Nat}
    (h : digitsValCore l acc = some v) : ∀ x ∈ l, '0' ≤ x ∧ x ≤ '9' := by
  induction l generalizing acc with
  | nil =>
    intro x hx
    cases hx
  | cons c cs ih =>
    rw [digitsValCore] at h
    by_cases hc : '0' ≤ c ∧ c ≤ '9'
    · rw [if_pos hc] at h
      intro x hx
      rcases List.mem_cons.mp hx with rfl | hx'
      · exact hc
      · exact ih h x hx'
    · rw [if_neg hc] at h
      exact absurd h (by simp)

theorem digitsVal_no_slash {l : List Char} {v : Nat} (h : digitsVal l = some v) :
    '/' ∉ l := by
  intro hm
  rw [digitsVal] at h
  split at h
  · exact Option.noConfusion h
  · exact absurd (digitsValCore_mem h _ hm).1 (by decide)

theorem pyDecimalInt_no_slash {s : List Char} {n : Int}
    (h : pyDecimalInt s = some n) : '/' ∉ s := by
  intro hm
  cases s with
  | nil => cases hm
  | cons c rest =>
    rw [pyDecimalInt] at h
    by_cases h1 : c = '+'
    · rw [if_pos h1] at h
      cases hdv : digitsVal rest with
      | none => rw [hdv] at h; exact Option.noConfusion h
      | some v =>
        rcases List.mem_cons.mp hm with he | hm'
        · rw [h1] at he
          exact absurd he (by decide)
        · exact digitsVal_no_slash hdv hm'
    · rw [if_neg h1] at h
      by_cases h2 : c = '-'
      · rw [if_pos h2] at h
        cases hdv : digitsVal rest with
        | none => rw [hdv] at h; exact Option.noConfusion h
        | some v =>
          rcases List.mem_cons.mp hm with he | hm'
          · rw [h2] at he
            exact absurd he (by decide)
          · exact digitsVal_no_slash hdv hm'
      · rw [if_neg h2] at h
        cases hdv : digitsVal (c :: rest) with
        | none => rw [hdv] at h; exact Option.noConfusion h
        | some v => exact digitsVal_no_slash hdv hm

theorem pySplitChar_no_sep {c : Char} : ∀ {t : List Char}, c ∉ t →
    pySplitChar c t = [t] := by
  intro t
  induction t with
  | nil =>
    intro _
    rfl
  | cons x xs ih =>
    intro h
    have hx : ¬ x = c := fun he => h (he ▸ List.mem_cons_self x xs)
    have hxs : c ∉ xs := fun hm => h (List.mem_cons_of_mem x hm)
    simp [pySplitChar, ih hxs, hx]

theorem pySplitChar_two {c : Char} {s t : List Char} (hs : c ∉ s) (ht : c ∉ t) :
    pySplitChar c (s ++ c :: t) = [s, t] := by
  induction s with
  | nil =>
    simp [pySplitChar, pySplitChar_no_sep ht]
  | cons x xs ih =>
    have hx : ¬ x = c := fun he => hs (he ▸ List.mem_cons_self x xs)
    have hxs : c ∉ xs := fun hm => hs (List.mem_cons_of_mem x hm)
    simp [pySplitChar, ih hxs, hx]

theorem parse_number_eq {s t : List Char} {n d : ℤ}
    (hs : pyDecimalInt s = some n) (ht : pyDecimalInt t = some d) (hd : d ≠ 0) :
    _parse_number (s ++ '/' :: t) = .ok (decimalDivQ n d) := by
  have hsplit : pySplitChar '/' (s ++ '/' :: t) = [s, t] :=
    pySplitChar_two (pyDecimalInt_no_slash hs) (pyDecimalInt_no_slash ht)
  rw [_parse_number, hsplit]
  simp only [hs, ht, if_neg hd]

/-- C1 (amended): the Rational Parser returns the value of the default-context
decimal quotient: for every "n/d" token with d nonzero, `_parse_number` returns
`decimalDivQ n d` — the quotient rounded to 28 significant decimal digits —
which equals the exact rational n/d if and only if n/d is representable with at
most 28 significant decimal digits.  In particular parsing "6/3" yields exactly
2, but parsing "1/3" yields 0.3333333333333333333333333333 (28 digits), whose
product with 3 is not 1. -/
theorem gnucash_c1 :
    (∀ (s t : List Char) (n d : ℤ), pyDecimalInt s = some n →
      pyDecimalInt t = some d → d ≠ 0 →
      _parse_number (s ++ '/' :: t) = .ok (decimalDivQ n d) ∧
      (decimalDivQ n d = (n:ℚ) / (d:ℚ) ↔ Repr28 ((n:ℚ) / (d:ℚ)))) ∧
    _parse_number ("6/3".data) = .ok 2 ∧
    _parse_number ("1/3".data) =
      .ok (mkRat 3333333333333333333333333333 (10 ^ 28)) ∧
    mkRat 3333333333333333333333333333 (10 ^ 28) * 3 ≠ 1 := by
  refine ⟨fun s t n d hs ht hd =>
    ⟨parse_number_eq hs ht hd, decimalDivQ_exact_iff n d hd⟩, by rfl, by rfl, ?_⟩
  rw [Rat.mkRat_eq_div]
  norm_num

/-- C1 witness: the general part of `gnucash_c1` applied to the token "6/3". -/
theorem gnucash_c1_witness :
    _parse_number ("6".data ++ '/' :: "3".data) = .ok (decimalDivQ 6 3) ∧
    (decimalDivQ 6 3 = (6:ℚ) / (3:ℚ) ↔ Repr28 ((6:ℚ) / (3:ℚ))) :=
  gnucash_c1.1 "6".data "3".data 6 3 (by rfl) (by rfl) (by norm_num)

/-- C1 fails as stated on the code: parsing "1/3" does not return the exact
rational 1/3 — it returns the 28-digit decimal 0.3333333333333333333333333333,
whose product with 3 is not 1. -/
theorem gnucash_c1_counterexample :
    _parse_number ("1/3".data) ≠ .ok ((1:ℚ) / (3:ℚ)) ∧
    _parse_number ("1/3".data) =
      .ok (mkRat 3333333333333333333333333333 (10 ^ 28)) ∧
    mkRat 3333333333333333333333333333 (10 ^ 28) * 3 ≠ 1 := by
  have hval : _parse_number ("1/3".data) =
      .ok (mkRat 3333333333333333333333333333 (10 ^ 28)) := by rfl
  refine ⟨?_, hval, ?_⟩
  · intro h
    rw [hval] at h
    have h2 : mkRat 3333333333333333333333333333 (10 ^ 28) = (1:ℚ) / 3 := by
      simpa using h
    rw [Rat.mkRat_eq_div] at h2
    norm_num at h2
  · rw [Rat.mkRat_eq_div]
    norm_num

/-- C5: the Rational Parser rejects malformed tokens without returning a
value: "5/0" raises the decimal DivisionByZero error, while "abc/2" (bad
integer literal) raises InvalidOperation and "5/2/1" (unpacking three parts)
raises ValueError — the two exceptions the specification's FormatError class
stands for. -/
theorem gnucash_c5 :
    _parse_number ("5/0".data) = .error .divisionByZero ∧
    _parse_number ("abc/2".data) = .error .invalidOperation ∧
    _parse_number ("5/2/1".data) = .error .valueError ∧
    isFormatError .invalidOperation = true ∧
    isFormatError .valueError = true ∧
    isFormatError .divisionByZero = false :=
  ⟨rfl, rfl, rfl, rfl, rfl, rfl⟩

/-! ### Verification: the slot decoder (claims C8, C10) -/

theorem dget_cons {κ ν : Type} [DecidableEq κ] (p : κ × ν) (rest : Dict κ ν) (k : κ) :
    dget (p :: rest) k = if p.1 = k then some p.2 else dget rest k := by
  by_cases h : p.1 = k
  · rw [dget, List.find?_cons_of_pos _ (by simpa using h), if_pos h]
    rfl
  · rw [dget, List.find?_cons_of_neg _ (by simpa using h), if_neg h]
    rfl

theorem dget_dset_self {κ ν : Type} [DecidableEq κ] (d : Dict κ ν) (k : κ) (v : ν) :
    dget (dset d k v) k = some v := by
  induction d with
  | nil => simp [dset, dget_cons]
  | cons p rest ih =>
    rw [dset]
    by_cases h : p.1 = k
    · rw [if_pos h]
      simp [dget_cons]
    · rw [if_neg h]
      rw [dget_cons, if_neg h]
      exact ih

theorem dget_dset_ne {κ ν : Type} [DecidableEq κ] (d : Dict κ ν) (k k' : κ) (v : ν)
    (h : k' ≠ k) : dget (dset d k v) k' = dget d k' := by
  have hkk : ¬ (k = k') := fun he => h he.symm
  induction d with
  | nil =>
    have hd : dset ([] : Dict κ ν) k v = [(k, v)] := rfl
    rw [hd, dget_cons, if_neg hkk]
  | cons p rest ih =>
    rw [dset]
    by_cases hp : p.1 = k
    · rw [if_pos hp]
      rw [dget_cons, dget_cons]
      rw [if_neg (show ¬ ((k, v) : κ × ν).1 = k' from hkk),
        if_neg (show ¬ p.1 = k' from by rw [hp]; exact hkk)]
    · rw [if_neg hp]
      rw [dget_cons, dget_cons]
      by_cases hpk : p.1 = k'
      · rw [if_pos hpk, if_pos hpk]
      · rw [if_neg hpk, if_neg hpk]
        exact ih

theorem mem_dkeys_dset {κ ν : Type} [DecidableEq κ] (d : Dict κ ν) (k k' : κ) (v : ν) :
    k' ∈ dkeys (dset d k v) ↔ k' = k ∨ k' ∈ dkeys d := by
  induction d with
  | nil => simp [dset, dkeys]
  | cons p rest ih =>
    rw [dset]
    by_cases h : p.1 = k
    · rw [if_pos h]
      simp only [dkeys, List.map_cons, List.mem_cons] at ih ⊢
      rw [h]
      tauto
    · rw [if_neg h]
      simp only [dkeys, List.map_cons, List.mem_cons] at ih ⊢
      rw [ih]
      tauto

theorem dkeys_dset_nodup {κ ν : Type} [DecidableEq κ] (d : Dict κ ν) (k : κ) (v : ν)
    (h : (dkeys d).Nodup) : (dkeys (dset d k v)).Nodup := by
  induction d with
  | nil => simp [dset, dkeys]
  | cons p rest ih =>
    rw [dset]
    simp only [dkeys, List.map_cons, List.nodup_cons] at h
    by_cases hp : p.1 = k
    · rw [if_pos hp]
      simp only [dkeys, List.map_cons, List.nodup_cons]
      rw [← hp]
      exact h
    · rw [if_neg hp]
      simp only [dkeys, List.map_cons, List.nodup_cons]
      refine ⟨?_, ih h.2⟩
      rw [show (dset rest k v).map (·.1) = dkeys (dset rest k v) from rfl,
        mem_dkeys_dset]
      push_neg
      exact ⟨hp, h.1⟩

/-- The type tags the slot dispatcher recognizes. -/
def recognizedSlotTypes : List String :=
  ["integer", "numeric", "string", "guid", "gdate", "timespec", "frame"]

theorem decodeSlotElem_unknown {pd : String → Option Int} {bad key value : XmlNode}
    (hkey : findTag bad (nsSlot ++ "key") = some key)
    (hvalue : findTag bad (nsSlot ++ "value") = some value)
    (hunknown : pyGet value "type" "string" ∉ recognizedSlotTypes) :
    decodeSlotElem pd bad =
      .error (.runtimeError ("Unknown slot type " ++ pyGet value "type" "string")) := by
  simp only [recognizedSlotTypes, List.mem_cons, List.not_mem_nil, or_false,
    not_or] at hunknown
  obtain ⟨h1, h2, h3, h4, h5, h6, h7⟩ := hunknown
  rw [decodeSlotElem]
  simp only [hkey, textOf]
  split
  · next heq =>
    rw [hvalue] at heq
    exact absurd heq (by simp)
  · next value' heq =>
    rw [hvalue] at heq
    injection heq with heq'
    subst heq'
    rw [if_neg h1, if_neg h2, if_neg (by tauto : ¬ (pyGet value "type" "string" = "string" ∨
      pyGet value "type" "string" = "guid")), if_neg h5, if_neg h6, if_neg h7]

theorem slotElems_error_append {pd : String → Option Int} {bad : XmlNode}
    {err : PyErr} (hbad : decodeSlotElem pd bad = .error err) :
    ∀ (pre : List XmlNode), (∀ e ∈ pre, ∃ kv, decodeSlotElem pd e = .ok kv) →
    ∀ (rest : List XmlNode) (acc : SlotMap),
      slotElems pd (pre ++ bad :: rest) acc = .error err := by
  intro pre
  induction pre with
  | nil =>
    intro _ rest acc
    rw [List.nil_append, slotElems, hbad]
  | cons e pre' ih =>
    intro hpre rest acc
    obtain ⟨kv, hkv⟩ := hpre e (List.mem_cons_self e pre')
    rw [List.cons_append, slotElems, hkv]
    exact ih (fun x hx => hpre x (List.mem_cons_of_mem e hx)) rest _

/-- C8: a slot whose value node carries an unrecognized `type` attribute makes
the decoder fail with the RuntimeError carrying that tag (no mapping is
returned), provided the slots before it decode; the unknown tag is never
skipped. -/
theorem gnucash_c8 (pd : String → Option Int) (container : XmlNode)
    (pre : List XmlNode) (bad : XmlNode) (rest : List XmlNode)
    (key value : XmlNode)
    (hsplit : childrenTagged "slot" container = pre ++ bad :: rest)
    (hpre : ∀ e ∈ pre, ∃ kv, decodeSlotElem pd e = .ok kv)
    (hkey : findTag bad (nsSlot ++ "key") = some key)
    (hvalue : findTag bad (nsSlot ++ "value") = some value)
    (hunknown : pyGet value "type" "string" ∉ recognizedSlotTypes) :
    slotsNode pd container =
      .error (.runtimeError ("Unknown slot type " ++ pyGet value "type" "string")) := by
  rw [slotsNode, hsplit]
  exact slotElems_error_append (decodeSlotElem_unknown hkey hvalue hunknown) pre hpre
    rest dempty

theorem find?_append_or {α : Type} (l₁ l₂ : List α) (p : α → Bool) :
    (l₁ ++ l₂).find? p = ((l₁.find? p).or (l₂.find? p)) := by
  induction l₁ with
  | nil => simp [Option.or]
  | cons a l ih =>
    by_cases h : p a
    · rw [List.cons_append, List.find?_cons_of_pos _ h, List.find?_cons_of_pos _ h]
      rfl
    · rw [List.cons_append, List.find?_cons_of_neg _ (by simpa using h),
        List.find?_cons_of_neg _ (by simpa using h)]
      exact ih

theorem slotElems_ok_of_forall₂ {pd : String → Option Int} :
    ∀ {elems : List XmlNode} {pairs : List (Option String × SlotValue)},
    List.Forall₂ (fun e kv => decodeSlotElem pd e = .ok kv) elems pairs →
    ∀ acc, slotElems pd elems acc =
      .ok (pairs.foldl (fun m p => dset m p.1 p.2) acc) := by
  intro elems pairs hdec
  induction hdec with
  | nil =>
    intro acc
    rw [slotElems]
    rfl
  | cons hhead _ ih =>
    intro acc
    rw [slotElems, hhead]
    exact ih _

theorem dget_foldl_dset {pairs : List (Option String × SlotValue)} :
    ∀ (acc : SlotMap) (key : Option String),
    dget (pairs.foldl (fun m p => dset m p.1 p.2) acc) key =
      ((pairs.reverse.find? (fun p => decide (p.1 = key))).map (·.2)).or
        (dget acc key) := by
  induction pairs with
  | nil =>
    intro acc key
    simp [Option.or]
  | cons p ps ih =>
    intro acc key
    rw [List.foldl_cons, ih, List.reverse_cons, find?_append_or]
    cases hfind : ps.reverse.find? (fun q => decide (q.1 = key)) with
    | some q => rfl
    | none =>
      by_cases hk : p.1 = key
      · rw [List.find?_singleton, if_pos (by simpa using hk), ← hk, dget_dset_self]
        rfl
      · rw [List.find?_singleton, if_neg (by simpa using hk),
          dget_dset_ne _ _ _ _ (fun he => hk he.symm)]
        rfl

theorem foldl_dset_keys_nodup {pairs : List (Option String × SlotValue)} :
    ∀ (acc : SlotMap), (dkeys acc).Nodup →
    (dkeys (pairs.foldl (fun m p => dset m p.1 p.2) acc)).Nodup := by
  induction pairs with
  | nil =>
    intro acc h
    exact h
  | cons p ps ih =>
    intro acc h
    rw [List.foldl_cons]
    exact ih _ (dkeys_dset_nodup _ _ _ h)

/-- C10: duplicate slot keys at the same level do not make the decoder fail:
the resulting mapping holds each key once, bound to the value of the last
occurrence in document order (earlier occurrences are overwritten). -/
theorem gnucash_c10 (pd : String → Option Int) (container : XmlNode)
    (pairs : List (Option String × SlotValue))
    (hdec : List.Forall₂ (fun e kv => decodeSlotElem pd e = .ok kv)
      (childrenTagged "slot" container) pairs) :
    ∃ m, slotsNode pd container = .ok m ∧
      (dkeys m).Nodup ∧
      ∀ key, dget m key =
        (pairs.reverse.find? (fun p => decide (p.1 = key))).map (·.2) := by
  refine ⟨pairs.foldl (fun m p => dset m p.1 p.2) dempty, ?_, ?_, ?_⟩
  · rw [slotsNode]
    exact slotElems_ok_of_forall₂ hdec dempty
  · exact foldl_dset_keys_nodup dempty (by simp [dempty, dkeys])
  · intro key
    rw [dget_foldl_dset]
    cases hfind : (pairs.reverse.find? (fun p => decide (p.1 = key))) <;> rfl

/-- Sample slot element: key text and a default-typed (string) value text. -/
def sampleSlot (k txt : String) : XmlNode :=
  .mk "slot" [] none
    [.mk (nsSlot ++ "key") [] (some k) [], .mk (nsSlot ++ "value") [] (some txt) []]

/-- Sample slot element with an unrecognized value type attribute. -/
def sampleBadSlot : XmlNode :=
  .mk "slot" [] none
    [.mk (nsSlot ++ "key") [] (some "k") [],
     .mk (nsSlot ++ "value") [("type", "bogus")] (some "x") []]

def sampleBadContainer : XmlNode := .mk "slots" [] none [sampleBadSlot]

def sampleDupContainer : XmlNode :=
  .mk "slots" [] none [sampleSlot "k" "a", sampleSlot "k" "b"]

def sampleDupPairs : List (Option String × SlotValue) :=
  [(some "k", .txt (some "a")), (some "k", .txt (some "b"))]

/-- C8 witness: a container with one slot of type "bogus". -/
theorem gnucash_c8_witness :
    slotsNode (fun _ => none) sampleBadContainer =
      .error (.runtimeError ("Unknown slot type " ++ "bogus")) := by
  have h := gnucash_c8 (fun _ => none) sampleBadContainer [] sampleBadSlot []
    (XmlNode.mk (nsSlot ++ "key") [] (some "k") [])
    (XmlNode.mk (nsSlot ++ "value") [("type", "bogus")] (some "x") [])
    (by rfl) (by simp) (by rfl) (by rfl) (by decide)
  exact h

/-- C10 witness: a container with two slots sharing the key "k". -/
theorem gnucash_c10_witness :
    ∃ m, slotsNode (fun _ => none) sampleDupContainer = .ok m ∧
      (dkeys m).Nodup ∧
      ∀ key, dget m key =
        (sampleDupPairs.reverse.find? (fun p => decide (p.1 = key))).map (·.2) := by
  refine gnucash_c10 (fun _ => none) sampleDupContainer sampleDupPairs ?_
  refine List.Forall₂.cons ?_ (List.Forall₂.cons ?_ List.Forall₂.nil) <;>
    (rw [decodeSlotElem]; rfl)

/-! ### Verification: commodity deduplication (claim C3) -/

def commodityKey (c : PCommodity) : Option String × Option String := (c.space, c.name)

/-- Index of the last commodity with a given key, counting from `i`. -/
def lastKeyIdxAux : List PCommodity → Nat → Option String × Option String → Option Nat
  | [], _, _ => none
  | c :: rest, i, key =>
    match lastKeyIdxAux rest (i + 1) key with
    | some j => some j
    | none => if commodityKey c = key then some i else none

/-- Index of the last commodity of the list holding a given (space, name) key. -/
def lastKeyIdx (cs : List PCommodity) (key : Option String × Option String) : Option Nat :=
  lastKeyIdxAux cs 0 key

/-- The (space, name) pair an account node names as its commodity. -/
def accountCommodityKey (tree : XmlNode) : Option (Option String × Option String) :=
  match textOf (findSegs tree [nsAct ++ "commodity", nsCmdty ++ "space"]),
        textOf (findSegs tree [nsAct ++ "commodity", nsCmdty ++ "id"]) with
  | .ok sp, .ok nm => some (sp, nm)
  | _, _ => none

/-- The (space, name) pair a transaction node names as its currency. -/
def txnCurrencyKey (tree : XmlNode) : Option (Option String × Option String) :=
  match textOf (findSegs tree [nsTrn ++ "currency", nsCmdty ++ "space"]),
        textOf (findSegs tree [nsTrn ++ "currency", nsCmdty ++ "id"]) with
  | .ok sp, .ok nm => some (sp, nm)
  | _, _ => none

theorem lastKeyIdxAux_append (cs : List PCommodity) (c : PCommodity)
    (key : Option String × Option String) :
    ∀ i, lastKeyIdxAux (cs ++ [c]) i key =
      if commodityKey c = key then some (i + cs.length) else lastKeyIdxAux cs i key := by
  induction cs with
  | nil =>
    intro i
    by_cases h : commodityKey c = key
    · simp [lastKeyIdxAux, h]
    · simp [lastKeyIdxAux, h]
  | cons d rest ih =>
    intro i
    rw [List.cons_append, lastKeyIdxAux, ih (i + 1)]
    by_cases h : commodityKey c = key
    · rw [if_pos h, if_pos h]
      show some (i + 1 + rest.length) = some (i + (rest.length + 1))
      exact congrArg some (by omega)
    · rw [if_neg h, if_neg h]
      rfl

theorem lastKeyIdx_append (cs : List PCommodity) (c : PCommodity)
    (key : Option String × Option String) :
    lastKeyIdx (cs ++ [c]) key =
      if commodityKey c = key then some cs.length else lastKeyIdx cs key := by
  rw [lastKeyIdx, lastKeyIdxAux_append, lastKeyIdx]
  by_cases h : commodityKey c = key
  · rw [if_pos h, if_pos h, Nat.zero_add]
  · rw [if_neg h, if_neg h]

theorem buildCommoditiesGo_spec :
    ∀ (nodes : List XmlNode) (cs : List PCommodity)
      (cd : Dict (Option String × Option String) Nat)
      (cs' : List PCommodity) (cd' : Dict (Option String × Option String) Nat),
    buildCommoditiesGo nodes cs cd = .ok (cs', cd') →
    (∀ key, dget cd key = lastKeyIdx cs key) →
    (∃ added, cs' = cs ++ added ∧
      List.Forall₂ (fun nd c => _commodity_from_tree nd = .ok c) nodes added) ∧
    (∀ key, dget cd' key = lastKeyIdx cs' key) := by
  intro nodes
  induction nodes with
  | nil =>
    intro cs cd cs' cd' h hinv
    rw [buildCommoditiesGo] at h
    injection h with h1
    injection h1 with h1 h2
    subst h1
    subst h2
    exact ⟨⟨[], by simp, List.Forall₂.nil⟩, hinv⟩
  | cons nd rest ih =>
    intro cs cd cs' cd' h hinv
    rw [buildCommoditiesGo] at h
    cases hc : _commodity_from_tree nd with
    | error e =>
      rw [hc] at h
      exact absurd h (by simp)
    | ok comm =>
      rw [hc] at h
      have hinv' : ∀ key, dget (dset cd (comm.space, comm.name) cs.length) key =
          lastKeyIdx (cs ++ [comm]) key := by
        intro key
        rw [lastKeyIdx_append]
        by_cases hk : commodityKey comm = key
        · rw [if_pos hk, ← hk]
          rw [show commodityKey comm = (comm.space, comm.name) from rfl]
          exact dget_dset_self cd _ _
        · rw [if_neg hk]
          rw [dget_dset_ne cd _ key _ (fun he => hk (by rw [he]; rfl))]
          exact hinv key
      obtain ⟨⟨added, hadd, hfa⟩, hdict⟩ := ih (cs ++ [comm]) _ cs' cd' h hinv'
      refine ⟨⟨comm :: added, by rw [hadd, List.append_assoc]; rfl, ?_⟩, hdict⟩
      exact List.Forall₂.cons hc hfa

theorem account_commodity_resolution {pd : String → Option Int}
    {cdict : Dict (Option String × Option String) Nat} {tree : XmlNode}
    {pg : Option String} {acc : PAccount}
    (h : _account_from_tree pd cdict tree = .ok (pg, acc))
    (hroot : acc.actype ≠ some "ROOT") :
    ∃ key j, accountCommodityKey tree = some key ∧ dget cdict key = some j ∧
      acc.commodity = some j := by
  rw [_account_from_tree] at h
  cases h1 : textOf (findTag tree (nsAct ++ "name")) with
  | error e => simp [h1] at h
  | ok name =>
  simp only [h1] at h
  cases h2 : textOf (findTag tree (nsAct ++ "id")) with
  | error e => simp [h2] at h
  | ok guid =>
  simp only [h2] at h
  cases h3 : textOf (findTag tree (nsAct ++ "type")) with
  | error e => simp [h3] at h
  | ok actype =>
  simp only [h3] at h
  cases h4 : _slots_from_tree pd (findTag tree (nsAct ++ "slots")) with
  | error e => simp [h4] at h
  | ok slots =>
  simp only [h4] at h
  by_cases hR : actype = some "ROOT"
  · rw [if_pos hR] at h
    simp only [Except.ok.injEq, Prod.mk.injEq] at h
    obtain ⟨hpg, hacc⟩ := h
    subst hacc
    rw [hR] at hroot
    exact absurd rfl hroot
  · rw [if_neg hR] at h
    cases h5 : textOf (findTag tree (nsAct ++ "parent")) with
    | error e => simp [h5] at h
    | ok parent_guid =>
    simp only [h5] at h
    cases h6 : textOf (findSegs tree [nsAct ++ "commodity", nsCmdty ++ "space"]) with
    | error e => simp [h6] at h
    | ok commodity_space =>
    simp only [h6] at h
    cases h7 : textOf (findSegs tree [nsAct ++ "commodity", nsCmdty ++ "id"]) with
    | error e => simp [h7] at h
    | ok commodity_name =>
    simp only [h7] at h
    cases h8 : textOf (findTag tree (nsAct ++ "commodity-scu")) with
    | error e => simp [h8] at h
    | ok commodity_scu =>
    simp only [h8] at h
    cases h9 : dget cdict (commodity_space, commodity_name) with
    | none => simp [h9] at h
    | some j =>
    simp only [h9] at h
    simp only [Except.ok.injEq, Prod.mk.injEq] at h
    obtain ⟨hpg, hacc⟩ := h
    subst hacc
    refine ⟨(commodity_space, commodity_name), j, ?_, h9, rfl⟩
    rw [accountCommodityKey, h6, h7]

theorem transaction_currency_resolution {pd : String → Option Int}
    {cdict : Dict (Option String × Option String) Nat}
    {adict : Dict (Option String) Nat}
    {accs : List PAccount} {txns : List PTransaction} {sps : List PSplit}
    {tree : XmlNode} {accs' : List PAccount} {txns' : List PTransaction}
    {sps' : List PSplit}
    (h : _transaction_from_tree pd cdict adict accs txns sps tree =
      .ok (accs', txns', sps')) :
    ∃ key j txn, txnCurrencyKey tree = some key ∧ dget cdict key = some j ∧
      txns' = txns ++ [txn] ∧ txn.currency = j := by
  rw [_transaction_from_tree] at h
  cases h1 : textOf (findTag tree (nsTrn ++ "id")) with
  | error e => simp [h1] at h
  | ok guid =>
  simp only [h1] at h
  cases h2 : textOf (findSegs tree [nsTrn ++ "currency", nsCmdty ++ "space"]) with
  | error e => simp [h2] at h
  | ok currency_space =>
  simp only [h2] at h
  cases h3 : textOf (findSegs tree [nsTrn ++ "currency", nsCmdty ++ "id"]) with
  | error e => simp [h3] at h
  | ok currency_name =>
  simp only [h3] at h
  cases h4 : dget cdict (currency_space, currency_name) with
  | none => simp [h4] at h
  | some j =>
  simp only [h4] at h
  cases h5 : (match findSegs tree [nsTrn ++ "date-posted", nsTs ++ "date"] with
      | none => Except.error PyErr.attributeError
      | some nd' => parseDateE pd nd'.text : Except PyErr Int) with
  | error e => simp [h5] at h
  | ok date =>
  simp only [h5] at h
  cases h6 : (match findSegs tree [nsTrn ++ "date-entered", nsTs ++ "date"] with
      | none => Except.error PyErr.attributeError
      | some nd' => parseDateE pd nd'.text : Except PyErr Int) with
  | error e => simp [h6] at h
  | ok date_entered =>
  simp only [h6] at h
  cases h7 : textOf (findTag tree (nsTrn ++ "description")) with
  | error e => simp [h7] at h
  | ok description =>
  simp only [h7] at h
  cases h8 : _slots_from_tree pd (findTag tree (nsTrn ++ "slots")) with
  | error e => simp [h8] at h
  | ok slots =>
  simp only [h8] at h
  cases h9 : txnSplitsGo pd adict txns.length
      (findallSegs tree [nsTrn ++ "splits", nsTrn ++ "split"]) accs sps [] with
  | error e => simp [h9] at h
  | ok res =>
  obtain ⟨accs2, sps2, ids⟩ := res
  simp only [h9] at h
  simp only [Except.ok.injEq, Prod.mk.injEq] at h
  obtain ⟨ha, ht, hs⟩ := h
  refine ⟨(currency_space, currency_name), j,
    ⟨guid, j, date, date_entered, description, ids, slots⟩, ?_, h4, ht.symm, rfl⟩
  rw [txnCurrencyKey, h2, h3]

/-- C3: every declared commodity is appended to the book's commodity list in
document order; the lookup table maps each (space, name) key to the index of
the last declared commodity with that key (later duplicates overwrite earlier
ones in the table only); accounts and transactions resolve their commodity
and currency through that table, so any two of them naming the same key hold
the same object (the same arena index). -/
theorem gnucash_c3 (nodes : List XmlNode) (cs : List PCommodity)
    (cd : Dict (Option String × Option String) Nat)
    (h : buildCommodities nodes = .ok (cs, cd)) :
    List.Forall₂ (fun nd c => _commodity_from_tree nd = .ok c) nodes cs ∧
    (∀ key, dget cd key = lastKeyIdx cs key) ∧
    (∀ pd tree pg acc, _account_from_tree pd cd tree = .ok (pg, acc) →
      acc.actype ≠ some "ROOT" →
      ∃ key j, accountCommodityKey tree = some key ∧ dget cd key = some j ∧
        acc.commodity = some j) ∧
    (∀ pd adict accs txns sps tree accs' txns' sps',
      _transaction_from_tree pd cd adict accs txns sps tree =
        .ok (accs', txns', sps') →
      ∃ key j txn, txnCurrencyKey tree = some key ∧ dget cd key = some j ∧
        txns' = txns ++ [txn] ∧ txn.currency = j) ∧
    (∀ pd t1 t2 pg1 pg2 a1 a2, _account_from_tree pd cd t1 = .ok (pg1, a1) →
      _account_from_tree pd cd t2 = .ok (pg2, a2) →
      a1.actype ≠ some "ROOT" → a2.actype ≠ some "ROOT" →
      accountCommodityKey t1 = accountCommodityKey t2 →
      a1.commodity = a2.commodity) := by
  obtain ⟨⟨added, hadd, hfa⟩, hdict⟩ :=
    buildCommoditiesGo_spec nodes [] dempty cs cd h (fun key => rfl)
  have hcs : cs = added := by simpa using hadd
  subst hcs
  refine ⟨hfa, hdict, ?_, ?_, ?_⟩
  · intro pd tree pg acc hacc hroot
    exact account_commodity_resolution hacc hroot
  · intro pd adict accs txns sps tree accs' txns' sps' htxn
    exact transaction_currency_resolution htxn
  · intro pd t1 t2 pg1 pg2 a1 a2 h1 h2 hr1 hr2 hk
    obtain ⟨k1, j1, hk1, hd1, hc1⟩ := account_commodity_resolution h1 hr1
    obtain ⟨k2, j2, hk2, hd2, hc2⟩ := account_commodity_resolution h2 hr2
    rw [hk1, hk2] at hk
    injection hk with hk'
    subst hk'
    rw [hd1] at hd2
    injection hd2 with hj
    subst hj
    rw [hc1, hc2]

/-- Sample commodity node. -/
def sampleCommodityNode : XmlNode :=
  .mk (nsGnc ++ "commodity") [] none
    [.mk (nsCmdty ++ "id") [] (some "USD") [],
     .mk (nsCmdty ++ "space") [] (some "ISO4217") []]

/-- C3 witness: two declarations of the same (space, name) pair. -/
theorem gnucash_c3_witness :
    List.Forall₂ (fun nd c => _commodity_from_tree nd = .ok c)
      [sampleCommodityNode, sampleCommodityNode]
      [⟨some "USD", some "ISO4217"⟩, ⟨some "USD", some "ISO4217"⟩] ∧
    (∀ key, dget [((some "ISO4217", some "USD"), 1)] key =
      lastKeyIdx [⟨some "USD", some "ISO4217"⟩, ⟨some "USD", some "ISO4217"⟩] key) ∧
    (∀ pd tree pg acc,
      _account_from_tree pd [((some "ISO4217", some "USD"), 1)] tree = .ok (pg, acc) →
      acc.actype ≠ some "ROOT" →
      ∃ key j, accountCommodityKey tree = some key ∧
        dget [((some "ISO4217", some "USD"), 1)] key = some j ∧
        acc.commodity = some j) ∧
    (∀ pd adict accs txns sps tree accs' txns' sps',
      _transaction_from_tree pd [((some "ISO4217", some "USD"), 1)] adict accs txns
        sps tree = .ok (accs', txns', sps') →
      ∃ key j txn, txnCurrencyKey tree = some key ∧
        dget [((some "ISO4217", some "USD"), 1)] key = some j ∧
        txns' = txns ++ [txn] ∧ txn.currency = j) ∧
    (∀ pd t1 t2 pg1 pg2 a1 a2,
      _account_from_tree pd [((some "ISO4217", some "USD"), 1)] t1 = .ok (pg1, a1) →
      _account_from_tree pd [((some "ISO4217", some "USD"), 1)] t2 = .ok (pg2, a2) →
      a1.actype ≠ some "ROOT" → a2.actype ≠ some "ROOT" →
      accountCommodityKey t1 = accountCommodityKey t2 →
      a1.commodity = a2.commodity) :=
  gnucash_c3 [sampleCommodityNode, sampleCommodityNode]
    [⟨some "USD", some "ISO4217"⟩, ⟨some "USD", some "ISO4217"⟩]
    [((some "ISO4217", some "USD"), 1)] (by rfl)

/-! ### Verification: the account pass and parent linking (claims C2, C9) -/

/-- Index of the last element from position `i` on satisfying `f`. -/
def lastWithAux {α : Type} (f : α → Bool) : List α → Nat → Option Nat
  | [], _ => none
  | a :: rest, i =>
    match lastWithAux f rest (i + 1) with
    | some j => some j
    | none => if f a then some i else none

/-- Index of the last element of `l` satisfying `f`. -/
def lastWith {α : Type} (f : α → Bool) (l : List α) : Option Nat :=
  lastWithAux f l 0

/-- Last element of `l` satisfying `f`. -/
def lastFind {α : Type} (f : α → Bool) (l : List α) : Option α :=
  l.reverse.find? f

theorem lastWithAux_append {α : Type} (f : α → Bool) (l : List α) (x : α) :
    ∀ i, lastWithAux f (l ++ [x]) i =
      if f x then some (i + l.length) else lastWithAux f l i := by
  induction l with
  | nil =>
    intro i
    by_cases h : f x
    · simp [lastWithAux, h]
    · simp [lastWithAux, h]
  | cons a rest ih =>
    intro i
    rw [List.cons_append, lastWithAux, ih (i + 1)]
    by_cases h : f x
    · rw [if_pos h, if_pos h]
      show some (i + 1 + rest.length) = some (i + (rest.length + 1))
      exact congrArg some (by omega)
    · rw [if_neg h, if_neg h]
      rfl

theorem lastWith_append {α : Type} (f : α → Bool) (l : List α) (x : α) :
    lastWith f (l ++ [x]) = if f x then some l.length else lastWith f l := by
  rw [lastWith, lastWithAux_append, lastWith]
  by_cases h : f x
  · rw [if_pos h, if_pos h, Nat.zero_add]
  · rw [if_neg h, if_neg h]

theorem lastFind_append {α : Type} (f : α → Bool) (l : List α) (x : α) :
    lastFind f (l ++ [x]) = if f x then some x else lastFind f l := by
  rw [lastFind, List.reverse_append, List.reverse_singleton, List.singleton_append]
  by_cases h : f x
  · rw [List.find?_cons_of_pos _ h, if_pos h]
  · rw [List.find?_cons_of_neg _ (by simpa using h), if_neg h]
    rfl

theorem lastWithAux_shift {α : Type} (f : α → Bool) :
    ∀ (l : List α) (i : Nat),
    lastWithAux f l i = (lastWith f l).map (fun j => j + i) := by
  intro l
  induction l with
  | nil => intro i; rfl
  | cons a rest ih =>
    intro i
    rw [lastWithAux, lastWith, lastWithAux, ih (i + 1), ih 1]
    cases lastWith f rest with
    | some j =>
      show some (j + (i + 1)) = some (j + 1 + i)
      exact congrArg some (by omega)
    | none =>
      by_cases hf : f a
      · rw [if_pos hf, if_pos hf]
        show some i = some (0 + i)
        exact congrArg some (by omega)
      · rw [if_neg hf, if_neg hf]
        rfl

theorem lastWithAux_of_not {α : Type} (f : α → Bool) :
    ∀ (l : List α) (i : Nat), (∀ x ∈ l, ¬ f x) → lastWithAux f l i = none := by
  intro l
  induction l with
  | nil => intro i _; rfl
  | cons a rest ih =>
    intro i h
    rw [lastWithAux, ih (i + 1) (fun x hx => h x (List.mem_cons_of_mem a hx)),
      if_neg (h a (List.mem_cons_self a rest))]

theorem lastWith_of_nodup {α : Type} (key : α → Option String) :
    ∀ (l : List α) (i : Nat) (x : α), (l.map key).Nodup → l.get? i = some x →
    lastWith (fun a => decide (key a = key x)) l = some i := by
  intro l
  induction l with
  | nil =>
    intro i x _ hget
    simp at hget
  | cons a rest ih =>
    intro i x hnd hget
    simp only [List.map_cons, List.nodup_cons] at hnd
    cases i with
    | zero =>
      injection hget with hax
      subst hax
      rw [lastWith, lastWithAux,
        lastWithAux_of_not _ _ _ (fun y hy hf => hnd.1 (by
          rw [show key a = key y from (by simpa using hf : key y = key a).symm]
          exact List.mem_map_of_mem key hy)),
        if_pos (by simp)]
    | succ i' =>
      have hx : x ∈ rest := List.get?_mem hget
      rw [lastWith, lastWithAux, lastWithAux_shift,
        ih i' x hnd.2 hget]
      rfl

theorem find?_unique {α : Type} (f : α → Bool) :
    ∀ (l : List α) (p : α), p ∈ l → f p →
    (∀ q ∈ l, f q → q = p) → l.find? f = some p := by
  intro l
  induction l with
  | nil =>
    intro p hp
    cases hp
  | cons a rest ih =>
    intro p hp hf huniq
    by_cases ha : f a
    · rw [List.find?_cons_of_pos _ ha, huniq a (List.mem_cons_self a rest) ha]
    · rw [List.find?_cons_of_neg _ (by simpa using ha)]
      rcases List.mem_cons.mp hp with rfl | hp'
      · exact absurd hf (by simpa using ha)
      · exact ih p hp' hf (fun q hq hfq => huniq q (List.mem_cons_of_mem a hq) hfq)

theorem forall₂_get? {α β : Type} {R : α → β → Prop} :
    ∀ {as : List α} {bs : List β}, List.Forall₂ R as bs →
    ∀ {i : Nat} {a : α}, as.get? i = some a →
    ∃ b, bs.get? i = some b ∧ R a b := by
  intro as bs hf
  induction hf with
  | nil =>
    intro i a hget
    simp at hget
  | cons hR _ ih =>
    intro i a hget
    cases i with
    | zero =>
      injection hget with ha
      subst ha
      exact ⟨_, rfl, hR⟩
    | succ i' => exact ih hget

theorem buildAccountsGo_spec (pd : String → Option Int)
    (cd : Dict (Option String × Option String) Nat) :
    ∀ (nodes : List XmlNode) (pairs0 : List (Option String × PAccount))
      (ad : Dict (Option String) Nat) (pdict : Dict (Option String) (Option String))
      (root : Option Nat) (accs' : List PAccount) (ad' : Dict (Option String) Nat)
      (pd' : Dict (Option String) (Option String)) (root' : Option Nat),
    buildAccountsGo pd cd nodes (pairs0.map (·.2)) ad pdict root =
      .ok (accs', ad', pd', root') →
    (∀ g, dget ad g = lastWith (fun a => decide (a.guid = g)) (pairs0.map (·.2))) →
    (∀ g, dget pdict g =
      (lastFind (fun pa => decide (pa.2.guid = g)) pairs0).map (·.1)) →
    root = lastWith (fun a => decide (a.actype = some "ROOT")) (pairs0.map (·.2)) →
    ∃ pairs1,
      List.Forall₂ (fun nd pa => _account_from_tree pd cd nd = .ok pa) nodes pairs1 ∧
      accs' = (pairs0 ++ pairs1).map (·.2) ∧
      (∀ g, dget ad' g = lastWith (fun a => decide (a.guid = g)) accs') ∧
      (∀ g, dget pd' g =
        (lastFind (fun pa => decide (pa.2.guid = g)) (pairs0 ++ pairs1)).map (·.1)) ∧
      root' = lastWith (fun a => decide (a.actype = some "ROOT")) accs' := by
  intro nodes
  induction nodes with
  | nil =>
    intro pairs0 ad pdict root accs' ad' pd' root' h had hpd hroot
    rw [buildAccountsGo] at h
    injection h with h1
    injection h1 with ha h1
    injection h1 with hb h1
    injection h1 with hc hd
    subst ha
    subst hb
    subst hc
    subst hd
    exact ⟨[], List.Forall₂.nil, by simp, had, by simpa using hpd, hroot⟩
  | cons nd rest ih =>
    intro pairs0 ad pdict root accs' ad' pd' root' h had hpd hroot
    rw [buildAccountsGo] at h
    cases hb : _account_from_tree pd cd nd with
    | error e => simp [hb] at h
    | ok pa =>
    obtain ⟨pg, acc⟩ := pa
    simp only [hb] at h
    have hlen : (pairs0.map (fun pa => pa.2)).length = pairs0.length := by
      rw [List.length_map]
    have hmap : (pairs0.map (fun pa => pa.2)) ++ [acc] =
        ((pairs0 ++ [(pg, acc)]).map (fun pa => pa.2)) := by
      rw [List.map_append]
      rfl
    have had' : ∀ g, dget (dset ad acc.guid (pairs0.map (fun pa => pa.2)).length) g =
        lastWith (fun a => decide (a.guid = g))
          ((pairs0 ++ [(pg, acc)]).map (fun pa => pa.2)) := by
      intro g
      rw [← hmap, lastWith_append]
      by_cases hg : acc.guid = g
      · rw [if_pos (by simpa using hg), ← hg, dget_dset_self, hlen]
      · rw [if_neg (by simpa using hg),
          dget_dset_ne ad _ g _ (fun he => hg he.symm)]
        exact had g
    have hpd' : ∀ g, dget (dset pdict acc.guid pg) g =
        (lastFind (fun pa => decide (pa.2.guid = g)) (pairs0 ++ [(pg, acc)])).map
          (·.1) := by
      intro g
      rw [lastFind_append]
      by_cases hg : acc.guid = g
      · rw [if_pos (by simpa using hg), ← hg, dget_dset_self]
        rfl
      · rw [if_neg (by simpa using hg),
          dget_dset_ne pdict _ g _ (fun he => hg he.symm)]
        exact hpd g
    have hroot' : (if acc.actype = some "ROOT"
          then some (pairs0.map (fun pa => pa.2)).length else root) =
        lastWith (fun a => decide (a.actype = some "ROOT"))
          ((pairs0 ++ [(pg, acc)]).map (fun pa => pa.2)) := by
      rw [← hmap, lastWith_append]
      by_cases hr : acc.actype = some "ROOT"
      · rw [if_pos hr, if_pos (by simpa using hr), hlen]
      · rw [if_neg hr, if_neg (by simpa using hr)]
        exact hroot
    obtain ⟨pairs1, hfa, haccs, had2, hpd2, hroot2⟩ :=
      ih (pairs0 ++ [(pg, acc)])
        (dset ad acc.guid (pairs0.map (fun pa => pa.2)).length)
        (dset pdict acc.guid pg)
        (if acc.actype = some "ROOT"
          then some (pairs0.map (fun pa => pa.2)).length else root)
        accs' ad' pd' root'
        (by rw [← hmap]; exact h) had' hpd' hroot'
    refine ⟨(pg, acc) :: pairs1, List.Forall₂.cons hb hfa, ?_, had2, ?_, hroot2⟩
    · rw [haccs, List.append_assoc]
      rfl
    · intro g
      rw [hpd2 g, List.append_assoc]
      rfl

def bookIdNode : XmlNode := .mk (nsBook ++ "id") [] (some "B") []

/-- Sample ROOT-typed account node. -/
def rootAcctNode (g : String) : XmlNode :=
  .mk (nsGnc ++ "account") [] none
    [.mk (nsAct ++ "name") [] (some g) [],
     .mk (nsAct ++ "id") [] (some g) [],
     .mk (nsAct ++ "type") [] (some "ROOT") []]

/-- Sample book with two ROOT accounts. -/
def twoRootDoc : XmlNode :=
  .mk "book" [] none [bookIdNode, rootAcctNode "r1", rootAcctNode "r2"]

/-- Sample non-root account that is its own parent. -/
def selfAcctNode : XmlNode :=
  .mk (nsGnc ++ "account") [] none
    [.mk (nsAct ++ "name") [] (some "X") [],
     .mk (nsAct ++ "id") [] (some "X") [],
     .mk (nsAct ++ "type") [] (some "BANK") [],
     .mk (nsAct ++ "parent") [] (some "X") [],
     .mk (nsAct ++ "commodity") [] none
       [.mk (nsCmdty ++ "space") [] (some "ISO4217") [],
        .mk (nsCmdty ++ "id") [] (some "USD") []],
     .mk (nsAct ++ "commodity-scu") [] (some "100") []]

/-- Sample book without any ROOT account. -/
def noRootDoc : XmlNode :=
  .mk "book" [] none [bookIdNode, sampleCommodityNode, selfAcctNode]

def twoRootAccs : List PAccount :=
  [⟨some "r1", some "r1", some "ROOT", none, none, [], none, none, [], dempty⟩,
   ⟨some "r2", some "r2", some "ROOT", none, none, [], none, none, [], dempty⟩]

/-- C9: the book assembler records the ROOT account last-wins: the recorded
root is the index of the last account of type ROOT in document order; with
several ROOT accounts parsing succeeds and the last one wins, and with none
parsing succeeds with the root left unset. -/
theorem gnucash_c9 :
    (∀ (pd : String → Option Int) (cd : Dict (Option String × Option String) Nat)
      (nodes : List XmlNode) (accs : List PAccount) (ad : Dict (Option String) Nat)
      (pdx : Dict (Option String) (Option String)) (root : Option Nat),
      buildAccounts pd cd nodes = .ok (accs, ad, pdx, root) →
      root = lastWith (fun a => decide (a.actype = some "ROOT")) accs) ∧
    (_book_from_tree (fun _ => some 0) twoRootDoc).map PBook.root_account =
      .ok (some 1) ∧
    (_book_from_tree (fun _ => some 0) noRootDoc).map PBook.root_account =
      .ok none := by
  refine ⟨?_, by rfl, by rfl⟩
  intro pd cd nodes accs ad pdx root h
  obtain ⟨pairs1, _, _, _, _, hroot⟩ :=
    buildAccountsGo_spec pd cd nodes [] dempty dempty none accs ad pdx root h
      (fun g => rfl) (fun g => rfl) rfl
  exact hroot

/-- C9 witness: the general last-wins statement applied to the two-ROOT book. -/
theorem gnucash_c9_witness :
    some 1 = lastWith (fun a => decide (a.actype = some "ROOT")) twoRootAccs :=
  gnucash_c9.1 (fun _ => some 0) dempty
    (childrenTagged (nsGnc ++ "account") twoRootDoc) twoRootAccs
    [(some "r1", 0), (some "r2", 1)] [(some "r1", none), (some "r2", none)]
    (some 1) (by rfl)

theorem list_getD_eq_get? {α : Type} (l : List α) (n : Nat) (d : α) :
    l.getD n d = (l.get? n).getD d := by
  rw [List.getD]

theorem linkStep_parent_some {ad : Dict (Option String) Nat}
    {pdx : Dict (Option String) (Option String)} {accs : List PAccount} {t : Nat}
    {accs₁ : List PAccount} (h : linkStep ad pdx accs t = .ok accs₁)
    {k jj : Nat} (hp : (accs.get? k).map PAccount.parent = some (some jj)) :
    (accs₁.get? k).map PAccount.parent = some (some jj) := by
  obtain ⟨a, hak, hap⟩ : ∃ a, accs.get? k = some a ∧ a.parent = some jj := by
    cases hk : accs.get? k with
    | none => rw [hk] at hp; exact Option.noConfusion hp
    | some a =>
      rw [hk] at hp
      exact ⟨a, rfl, by injection hp⟩
  rw [linkStep] at h
  split at h
  next hg =>
    have htk : t ≠ k := by
      intro he
      rw [he, list_getD_eq_get?, hak, Option.getD_some, hap] at hg
      exact Option.noConfusion hg.1
    split at h
    next => exact Except.noConfusion h
    next pg hq =>
      split at h
      next => exact Except.noConfusion h
      next j hr =>
        injection h with h
        subst h
        by_cases hjk : j = k
        · subst hjk
          rw [List.get?_set_eq, List.get?_set_ne _ _ htk, hak]
          show some (PAccount.parent _) = some (some jj)
          refine congrArg some ?_
          show ((accs.set t _).getD j dfltPAccount).parent = some jj
          rw [list_getD_eq_get?, List.get?_set_ne _ _ htk, hak, Option.getD_some, hap]
        · rw [List.get?_set_ne _ _ (fun he => hjk he), List.get?_set_ne _ _ htk, hak]
          exact congrArg some hap
  next hg =>
    injection h with h
    subst h
    rw [hak]
    exact congrArg some hap

/-- The account arena after the linking step for index `t` resolved its
parent to index `j`: account `t` gets `parent := some j` and account `j`
gets `t` appended to its children. -/
def linkedArena (accs : List PAccount) (t j : Nat) : List PAccount :=
  (accs.set t { accs.getD t dfltPAccount with parent := some j }).set j
    { (accs.set t { accs.getD t dfltPAccount with parent := some j }).getD j dfltPAccount with
      children :=
        ((accs.set t { accs.getD t dfltPAccount with parent := some j }).getD j
          dfltPAccount).children ++ [t] }

theorem linkStep_ok_cases {ad : Dict (Option String) Nat}
    {pdx : Dict (Option String) (Option String)} {accs : List PAccount} {t : Nat}
    {accs₁ : List PAccount} (h : linkStep ad pdx accs t = .ok accs₁) :
    accs₁ = accs ∨
    ∃ j, (accs.getD t dfltPAccount).parent = none ∧ accs₁ = linkedArena accs t j := by
  rw [linkStep] at h
  split at h
  next hg =>
    split at h
    next => exact Except.noConfusion h
    next pg hq =>
      split at h
      next => exact Except.noConfusion h
      next j hr =>
        injection h with h
        exact Or.inr ⟨j, hg.1, h.symm⟩
  next hg =>
    injection h with h
    exact Or.inl h.symm

theorem linkStep_get {ad : Dict (Option String) Nat}
    {pdx : Dict (Option String) (Option String)} {accs : List PAccount} {t : Nat}
    {accs₁ : List PAccount} (h : linkStep ad pdx accs t = .ok accs₁)
    {k : Nat} {ak : PAccount} (hk : accs.get? k = some ak) :
    ∃ ak', accs₁.get? k = some ak' ∧ ak'.guid = ak.guid ∧ ak'.actype = ak.actype ∧
      (∀ c, c ∈ ak.children → c ∈ ak'.children) ∧
      (∀ jx, ak.parent = some jx → ak'.parent = some jx) ∧
      (k ≠ t → ak'.parent = ak.parent) := by
  rcases linkStep_ok_cases h with rfl | ⟨j, hpn, rfl⟩
  · exact ⟨ak, hk, rfl, rfl, fun c hc => hc, fun jx hj => hj, fun _ => rfl⟩
  · simp only [linkedArena]
    set A2 := accs.set t { accs.getD t dfltPAccount with parent := some j } with hA2
    set pa := A2.getD j dfltPAccount with hpa
    by_cases hkj : k = j
    · subst hkj
      by_cases hkt : k = t
      · subst hkt
        have hacc : accs.getD k dfltPAccount = ak := by
          rw [list_getD_eq_get?, hk, Option.getD_some]
        have hA2k : A2.get? k = some { ak with parent := some k } := by
          rw [hA2, hacc, List.get?_set_eq, hk]
          rfl
        have hpaeq : pa = { ak with parent := some k } := by
          rw [hpa, list_getD_eq_get?, hA2k, Option.getD_some]
        refine ⟨{ pa with children := pa.children ++ [k] }, ?_, ?_, ?_, ?_, ?_, ?_⟩
        · rw [List.get?_set_eq, hA2k]
          rfl
        · show pa.guid = ak.guid
          rw [hpaeq]
        · show pa.actype = ak.actype
          rw [hpaeq]
        · intro c hc
          show c ∈ pa.children ++ [k]
          rw [hpaeq]
          exact List.mem_append_left _ hc
        · intro jx hjx
          rw [hacc] at hpn
          rw [hpn] at hjx
          exact Option.noConfusion hjx
        · exact fun hne => absurd rfl hne
      · have htk : t ≠ k := fun he => hkt he.symm
        have hA2k : A2.get? k = some ak := by
          rw [hA2, List.get?_set_ne _ _ htk, hk]
        have hpaeq : pa = ak := by
          rw [hpa, list_getD_eq_get?, hA2k, Option.getD_some]
        refine ⟨{ pa with children := pa.children ++ [t] }, ?_, ?_, ?_, ?_, ?_, ?_⟩
        · rw [List.get?_set_eq, hA2k]
          rfl
        · show pa.guid = ak.guid
          rw [hpaeq]
        · show pa.actype = ak.actype
          rw [hpaeq]
        · intro c hc
          show c ∈ pa.children ++ [t]
          rw [hpaeq]
          exact List.mem_append_left _ hc
        · intro jx hjx
          show pa.parent = some jx
          rw [hpaeq]
          exact hjx
        · intro _
          show pa.parent = ak.parent
          rw [hpaeq]
    · have hjk : j ≠ k := fun he => hkj he.symm
      have h1 : ∀ Y : PAccount, ((A2.set j Y).get? k) = A2.get? k :=
        fun Y => List.get?_set_ne _ _ hjk
      by_cases hkt : k = t
      · subst hkt
        have hacc : accs.getD k dfltPAccount = ak := by
          rw [list_getD_eq_get?, hk, Option.getD_some]
        have hA2k : A2.get? k = some { ak with parent := some j } := by
          rw [hA2, hacc, List.get?_set_eq, hk]
          rfl
        refine ⟨_, (h1 _).trans hA2k, rfl, rfl, fun c hc => hc, ?_,
          fun hne => absurd rfl hne⟩
        intro jx hjx
        rw [hacc] at hpn
        rw [hpn] at hjx
        exact Option.noConfusion hjx
      · have htk : t ≠ k := fun he => hkt he.symm
        have hA2k : A2.get? k = some ak := by
          rw [hA2, List.get?_set_ne _ _ htk, hk]
        exact ⟨ak, (h1 _).trans hA2k, rfl, rfl, fun c hc => hc, fun jx hjx => hjx,
          fun _ => rfl⟩

theorem linkStep_links {ad : Dict (Option String) Nat}
    {pdx : Dict (Option String) (Option String)} {accs : List PAccount}
    {i j : Nat} {pg : Option String} {ai aj : PAccount}
    (hak : accs.get? i = some ai) (hpar : ai.parent = none)
    (hroot : ai.actype ≠ some "ROOT")
    (hpd : dget pdx ai.guid = some pg) (had : dget ad pg = some j)
    (hij : i ≠ j) (haj : accs.get? j = some aj) :
    ∃ accs', linkStep ad pdx accs i = .ok accs' ∧
      accs'.get? i = some { ai with parent := some j } ∧
      accs'.get? j = some { aj with children := aj.children ++ [i] } := by
  have hacc : accs.getD i dfltPAccount = ai := by
    rw [list_getD_eq_get?, hak, Option.getD_some]
  have hs : linkStep ad pdx accs i = .ok (linkedArena accs i j) := by
    rw [linkStep]
    rw [if_pos (show (accs.getD i dfltPAccount).parent = none ∧
        (accs.getD i dfltPAccount).actype ≠ some "ROOT" by
      rw [hacc]; exact ⟨hpar, hroot⟩)]
    have hpd' : dget pdx (accs.getD i dfltPAccount).guid = some pg := by
      rw [hacc]; exact hpd
    simp only [hpd', had]
    rfl
  have hji : j ≠ i := fun he => hij he.symm
  have hgi : (linkedArena accs i j).get? i = some { ai with parent := some j } := by
    simp only [linkedArena]
    rw [List.get?_set_ne _ _ hji, hacc, List.get?_set_eq, hak]
    rfl
  have hgj : (linkedArena accs i j).get? j =
      some { aj with children := aj.children ++ [i] } := by
    simp only [linkedArena]
    have hpaeq : (accs.set i { accs.getD i dfltPAccount with parent := some j }).getD j
        dfltPAccount = aj := by
      rw [list_getD_eq_get?, List.get?_set_ne _ _ hij, haj, Option.getD_some]
    rw [List.get?_set_eq, hpaeq, List.get?_set_ne _ _ hij, haj]
    rfl
  exact ⟨_, hs, hgi, hgj⟩

theorem linkGo_get {ad : Dict (Option String) Nat}
    {pdx : Dict (Option String) (Option String)} (L : List Nat) :
    ∀ {accs accs₁ : List PAccount}, linkGo ad pdx L accs = .ok accs₁ →
    ∀ {k : Nat} {ak : PAccount}, accs.get? k = some ak →
    ∃ ak', accs₁.get? k = some ak' ∧ ak'.guid = ak.guid ∧ ak'.actype = ak.actype ∧
      (∀ c, c ∈ ak.children → c ∈ ak'.children) ∧
      (∀ jx, ak.parent = some jx → ak'.parent = some jx) ∧
      (k ∉ L → ak'.parent = ak.parent) := by
  induction L with
  | nil =>
    intro accs accs₁ h k ak hk
    injection h with h
    subst h
    exact ⟨ak, hk, rfl, rfl, fun c hc => hc, fun jx hj => hj, fun _ => rfl⟩
  | cons t rest ih =>
    intro accs accs₁ h k ak hk
    simp only [linkGo] at h
    cases hs : linkStep ad pdx accs t with
    | error e =>
      rw [hs] at h
      exact Except.noConfusion h
    | ok mid =>
      simp only [hs] at h
      obtain ⟨ak₂, hk₂, hg₂, ha₂, hc₂, hps₂, hpe₂⟩ := linkStep_get hs hk
      obtain ⟨ak', hk', hg', ha', hc', hps', hpe'⟩ := ih h hk₂
      refine ⟨ak', hk', hg'.trans hg₂, ha'.trans ha₂,
        fun c hc => hc' _ (hc₂ _ hc), fun jx hjx => hps' _ (hps₂ _ hjx), ?_⟩
      intro hkL
      have hkt : k ≠ t := fun he => hkL (by rw [he]; exact List.mem_cons_self t rest)
      have hkr : k ∉ rest := fun hm => hkL (List.mem_cons_of_mem _ hm)
      rw [hpe' hkr, hpe₂ hkt]

theorem linkGo_links {ad : Dict (Option String) Nat}
    {pdx : Dict (Option String) (Option String)} (L : List Nat) :
    ∀ {accs accs₁ : List PAccount} {i j : Nat} {pg : Option String} {ai aj : PAccount},
      i ∈ L → linkGo ad pdx L accs = .ok accs₁ →
      accs.get? i = some ai → ai.parent = none → ai.actype ≠ some "ROOT" →
      dget pdx ai.guid = some pg → dget ad pg = some j → i ≠ j →
      accs.get? j = some aj →
      ∃ ai' aj', accs₁.get? i = some ai' ∧ ai'.parent = some j ∧
        accs₁.get? j = some aj' ∧ i ∈ aj'.children := by
  induction L with
  | nil =>
    intro accs accs₁ i j pg ai aj hmem _ _ _ _ _ _ _ _
    exact absurd hmem (List.not_mem_nil _)
  | cons t rest ih =>
    intro accs accs₁ i j pg ai aj hmem h hak hpar hroot hpd had hij haj
    simp only [linkGo] at h
    by_cases hit : i = t
    · subst hit
      obtain ⟨mid, hs, hgi, hgj⟩ := linkStep_links hak hpar hroot hpd had hij haj
      simp only [hs] at h
      obtain ⟨ai', hi', _, _, _, hpp, _⟩ := linkGo_get rest h hgi
      obtain ⟨aj', hj', _, _, hcc', _, _⟩ := linkGo_get rest h hgj
      exact ⟨ai', aj', hi', hpp _ rfl, hj',
        hcc' _ (List.mem_append_right _ (List.mem_singleton_self i))⟩
    · have hir : i ∈ rest := by
        cases hmem with
        | head => exact absurd rfl hit
        | tail _ hm => exact hm
      cases hs : linkStep ad pdx accs t with
      | error e =>
        rw [hs] at h
        exact Except.noConfusion h
      | ok mid =>
        simp only [hs] at h
        obtain ⟨ai₂, hi₂, hg₂, ha₂, _, _, hpe₂⟩ := linkStep_get hs hak
        obtain ⟨aj₂, hj₂, _, _, _, _, _⟩ := linkStep_get hs haj
        refine ih hir h hi₂ ?_ ?_ ?_ had hij hj₂
        · rw [hpe₂ hit, hpar]
        · rw [ha₂]
          exact hroot
        · rw [hg₂]
          exact hpd

/-- C2: for a document whose account A (arena index `i`) appears before its
parent P (arena index `j`, so `i < j` in document order), the second
(linking) pass of `_book_from_tree` still resolves the link: afterwards A's
parent reference is P and A is in P's children list. Linking runs only
after all accounts are built, so the forward reference is tolerated. -/
theorem gnucash_c2 {accs accs₁ : List PAccount} {ad : Dict (Option String) Nat}
    {pdict : Dict (Option String) (Option String)} {i j : Nat} {pg : Option String}
    {ai aj : PAccount}
    (h : linkAccounts accs ad pdict = .ok accs₁)
    (hdoc : i < j)
    (hmem : i ∈ dvalues ad)
    (hak : accs.get? i = some ai) (hpar : ai.parent = none)
    (hroot : ai.actype ≠ some "ROOT")
    (hpd : dget pdict ai.guid = some pg) (had : dget ad pg = some j)
    (haj : accs.get? j = some aj) :
    ∃ ai' aj', accs₁.get? i = some ai' ∧ ai'.parent = some j ∧
      accs₁.get? j = some aj' ∧ i ∈ aj'.children :=
  linkGo_links (dvalues ad) hmem h hak hpar hroot hpd had (Nat.ne_of_lt hdoc) haj

/-- Sample non-root account node named `g` with parent reference `par`. -/
def c2AcctNode (g par : String) : XmlNode :=
  .mk (nsGnc ++ "account") [] none
    [.mk (nsAct ++ "name") [] (some g) [],
     .mk (nsAct ++ "id") [] (some g) [],
     .mk (nsAct ++ "type") [] (some "BANK") [],
     .mk (nsAct ++ "parent") [] (some par) [],
     .mk (nsAct ++ "commodity") [] none
       [.mk (nsCmdty ++ "space") [] (some "ISO4217") [],
        .mk (nsCmdty ++ "id") [] (some "USD") []],
     .mk (nsAct ++ "commodity-scu") [] (some "100") []]

/-- Sample book in which account A precedes its parent P in document order. -/
def c2Doc : XmlNode :=
  .mk "book" [] none
    [bookIdNode, sampleCommodityNode, c2AcctNode "A" "P", rootAcctNode "R",
     c2AcctNode "P" "R"]

def c2CDict : Dict (Option String × Option String) Nat :=
  ((buildCommodities (childrenTagged (nsGnc ++ "commodity") c2Doc)).toOption.getD
    ([], dempty)).2

def c2Built :
    List PAccount × Dict (Option String) Nat × Dict (Option String) (Option String) ×
      Option Nat :=
  (buildAccounts (fun _ => some 0) c2CDict
    (childrenTagged (nsGnc ++ "account") c2Doc)).toOption.getD ([], dempty, dempty, none)

def c2Accs : List PAccount := c2Built.1

def c2Ad : Dict (Option String) Nat := c2Built.2.1

def c2Pdict : Dict (Option String) (Option String) := c2Built.2.2.1

def c2Linked : List PAccount := (linkAccounts c2Accs c2Ad c2Pdict).toOption.getD []

def c2A : PAccount := (c2Accs.get? 0).getD dfltPAccount

def c2P : PAccount := (c2Accs.get? 2).getD dfltPAccount

/-- C2 witness: in the sample book, account A (index 0, before its parent in
document order) ends up linked to parent P (index 2) and registered among
P's children. -/
theorem gnucash_c2_witness :
    ∃ ai' aj', c2Linked.get? 0 = some ai' ∧ ai'.parent = some 2 ∧
      c2Linked.get? 2 = some aj' ∧ 0 ∈ aj'.children := by
  have h : linkAccounts c2Accs c2Ad c2Pdict = .ok c2Linked := by rfl
  have hm : 0 ∈ dvalues c2Ad := by decide
  have hak : c2Accs.get? 0 = some c2A := by rfl
  have hpar : c2A.parent = none := by rfl
  have hroot : c2A.actype ≠ some "ROOT" := by decide
  have hpd : dget c2Pdict c2A.guid = some (some "P") := by rfl
  have had : dget c2Ad (some "P") = some 2 := by rfl
  have haj : c2Accs.get? 2 = some c2P := by rfl
  exact gnucash_c2 h (by decide) hm hak hpar hroot hpd had haj

theorem get?_some_of_lt {α : Type} {l : List α} {n : Nat} (h : n < l.length) :
    ∃ a, l.get? n = some a :=
  ⟨l.get ⟨n, h⟩, List.get?_eq_get h⟩

theorem split_from_tree_spec {pd : String → Option Int} {ad : Dict (Option String) Nat}
    {tIdx : Nat} {accs : List PAccount} {sps : List PSplit} {tree : XmlNode}
    {accs' : List PAccount} {sps' : List PSplit} {sIdx : Nat}
    (hvalid : ∀ g n, dget ad g = some n → n < accs.length)
    (h : _split_from_tree pd ad tIdx accs sps tree = .ok (accs', sps', sIdx)) :
    sIdx = sps.length ∧ accs'.length = accs.length ∧
    ∃ sp : PSplit, sps' = sps ++ [sp] ∧ sp.transaction = tIdx ∧
      (∃ a, accs'.get? sp.account = some a ∧ sps.length ∈ a.splits) ∧
      (∀ k ak, accs.get? k = some ak →
        ∃ ak' news, accs'.get? k = some ak' ∧ ak'.splits = ak.splits ++ news) := by
  rw [_split_from_tree] at h
  repeat (first
    | (split at h <;> try exact Except.noConfusion h)
    | simp only [] at h)
  rename_i gacct xa acct hacct xs slotsm hslots
  injection h with h
  injection h with h1 h
  injection h with h2 h3
  subst h1
  subst h2
  subst h3
  have hlt : acct < accs.length := hvalid _ _ hacct
  obtain ⟨a0, ha0⟩ := get?_some_of_lt hlt
  have hacc : accs.getD acct dfltPAccount = a0 := by
    rw [list_getD_eq_get?, ha0, Option.getD_some]
  refine ⟨rfl, by rw [List.length_set], _, rfl, rfl, ?_, ?_⟩
  · refine ⟨{ accs.getD acct dfltPAccount with
        splits := (accs.getD acct dfltPAccount).splits ++ [sps.length] }, ?_, ?_⟩
    · show (accs.set acct _).get? acct = some _
      rw [List.get?_set_eq, ha0]
      rfl
    · show sps.length ∈ (accs.getD acct dfltPAccount).splits ++ [sps.length]
      exact List.mem_append_right _ (List.mem_singleton_self _)
  · intro k ak hk
    by_cases hka : k = acct
    · subst hka
      have hak : accs.getD k dfltPAccount = ak := by
        rw [list_getD_eq_get?, hk, Option.getD_some]
      refine ⟨{ accs.getD k dfltPAccount with
          splits := (accs.getD k dfltPAccount).splits ++ [sps.length] }, [sps.length],
        ?_, ?_⟩
      · rw [List.get?_set_eq, hk]
        rfl
      · show (accs.getD k dfltPAccount).splits ++ [sps.length] = ak.splits ++ [sps.length]
        rw [hak]
    · refine ⟨ak, [], ?_, (List.append_nil _).symm⟩
      rw [List.get?_set_ne _ _ (fun he => hka he.symm), hk]

theorem txnSplitsGo_spec {pd : String → Option Int} {ad : Dict (Option String) Nat}
    {tIdx : Nat} (nodes : List XmlNode) :
    ∀ {accs : List PAccount} {sps : List PSplit} {ids : List Nat}
      {accs₁ : List PAccount} {sps₁ : List PSplit} {ids₁ : List Nat},
      (∀ g n, dget ad g = some n → n < accs.length) →
      txnSplitsGo pd ad tIdx nodes accs sps ids = .ok (accs₁, sps₁, ids₁) →
      accs₁.length = accs.length ∧
      (∃ newsps, sps₁ = sps ++ newsps) ∧
      ids₁ = ids ++ List.range' sps.length nodes.length ∧
      (∀ s ∈ List.range' sps.length nodes.length,
        ∃ sp, sps₁.get? s = some sp ∧ sp.transaction = tIdx ∧
          ∃ a, accs₁.get? sp.account = some a ∧ s ∈ a.splits) ∧
      (∀ k ak, accs.get? k = some ak →
        ∃ ak' news, accs₁.get? k = some ak' ∧ ak'.splits = ak.splits ++ news) := by
  induction nodes with
  | nil =>
    intro accs sps ids accs₁ sps₁ ids₁ hvalid h
    injection h with h
    injection h with h1 h
    injection h with h2 h3
    subst h1
    subst h2
    subst h3
    refine ⟨rfl, ⟨[], (List.append_nil _).symm⟩, (List.append_nil _).symm,
      fun s hs => absurd hs (List.not_mem_nil s),
      fun k ak hk => ⟨ak, [], hk, (List.append_nil _).symm⟩⟩
  | cons nd rest ih =>
    intro accs sps ids accs₁ sps₁ ids₁ hvalid h
    simp only [txnSplitsGo] at h
    cases hs : _split_from_tree pd ad tIdx accs sps nd with
    | error e =>
      rw [hs] at h
      exact Except.noConfusion h
    | ok out =>
      obtain ⟨accs', sps', sIdx⟩ := out
      simp only [hs] at h
      obtain ⟨hsIdx, hlen', sp, hsps', htr, ⟨a, hga, hmem⟩, hgrow₀⟩ :=
        split_from_tree_spec hvalid hs
      subst hsIdx
      have hvalid' : ∀ g n, dget ad g = some n → n < accs'.length := by
        intro g n hg
        rw [hlen']
        exact hvalid g n hg
      obtain ⟨hlen₁, ⟨newsps₁, hpre₁⟩, hids, hnew, hgrow₁⟩ := ih hvalid' h
      have hsplen : sps'.length = sps.length + 1 := by
        rw [hsps', List.length_append, List.length_singleton]
      have hrange : List.range' sps.length (nd :: rest).length =
          sps.length :: List.range' sps'.length rest.length := by
        rw [hsplen]
        rfl
      refine ⟨hlen₁.trans hlen', ?_, ?_, ?_, ?_⟩
      · exact ⟨[sp] ++ newsps₁, by rw [hpre₁, hsps', List.append_assoc]⟩
      · rw [hids, hrange, List.append_assoc]
        rfl
      · intro s hsm
        rw [hrange] at hsm
        cases hsm with
        | head =>
          refine ⟨sp, ?_, htr, ?_⟩
          · rw [hpre₁, hsps']
            rw [List.get?_append
              (by rw [List.length_append, List.length_singleton]; omega)]
            rw [List.get?_append_right (Nat.le_refl _)]
            simp
          · obtain ⟨a', news, hga', hsp'⟩ := hgrow₁ _ _ hga
            exact ⟨a', hga', by rw [hsp']; exact List.mem_append_left _ hmem⟩
        | tail _ hm => exact hnew s hm
      · intro k ak hk
        obtain ⟨ak', news₀, hk', hs₀⟩ := hgrow₀ k ak hk
        obtain ⟨ak'', news₁, hk'', hs₁⟩ := hgrow₁ k ak' hk'
        exact ⟨ak'', news₀ ++ news₁, hk'', by rw [hs₁, hs₀, List.append_assoc]⟩

/-- C4: building a transaction cross-registers every one of its splits: the
new transaction is appended to the transaction list, its split list is the
run of freshly created split indices in document order within the
transaction, every one of those splits records this transaction as its
owner and appears in its resolved account's split list, and every account's
split list only grows by appending (insertion order across transactions is
preserved). -/
theorem gnucash_c4 {pd : String → Option Int}
    {cd : Dict (Option String × Option String) Nat} {ad : Dict (Option String) Nat}
    {accs : List PAccount} {txns : List PTransaction} {sps : List PSplit}
    {tree : XmlNode} {accs₁ : List PAccount} {txns₁ : List PTransaction}
    {sps₁ : List PSplit}
    (hvalid : ∀ g n, dget ad g = some n → n < accs.length)
    (h : _transaction_from_tree pd cd ad accs txns sps tree = .ok (accs₁, txns₁, sps₁)) :
    ∃ txn, txns₁ = txns ++ [txn] ∧
      txn.splits = List.range' sps.length
        (findallSegs tree [nsTrn ++ "splits", nsTrn ++ "split"]).length ∧
      (∀ s ∈ txn.splits, ∃ sp, sps₁.get? s = some sp ∧ sp.transaction = txns.length ∧
        ∃ a, accs₁.get? sp.account = some a ∧ s ∈ a.splits) ∧
      (∀ k ak, accs.get? k = some ak →
        ∃ ak' news, accs₁.get? k = some ak' ∧ ak'.splits = ak.splits ++ news) := by
  rw [_transaction_from_tree] at h
  repeat (first
    | (split at h <;> try exact Except.noConfusion h)
    | simp only [] at h)
  rename_i xg accs' sps' ids hgo
  injection h with h
  injection h with h1 h
  injection h with h2 h3
  subst h1
  subst h2
  subst h3
  obtain ⟨_, _, hids, hnew, hgrow⟩ := txnSplitsGo_spec _ hvalid hgo
  rw [List.nil_append] at hids
  subst hids
  exact ⟨_, rfl, rfl, hnew, hgrow⟩

theorem dget_mem_dvalues {κ ν : Type} [DecidableEq κ] {d : Dict κ ν} {k : κ} {v : ν}
    (h : dget d k = some v) : v ∈ dvalues d := by
  rw [dget] at h
  cases hf : d.find? (fun p => decide (p.1 = k)) with
  | none =>
    rw [hf] at h
    exact Option.noConfusion h
  | some p =>
    rw [hf] at h
    injection h with h
    subst h
    exact List.mem_map_of_mem _ (List.mem_of_find?_eq_some hf)

/-- Sample split node with guid `g` posting to the account with guid `acct`. -/
def c4SplitNode (g acct : String) : XmlNode :=
  .mk (nsTrn ++ "split") [] none
    [.mk (nsSplit ++ "id") [] (some g) [],
     .mk (nsSplit ++ "reconciled-state") [] (some "n") [],
     .mk (nsSplit ++ "value") [] (some "5/1") [],
     .mk (nsSplit ++ "quantity") [] (some "5/1") [],
     .mk (nsSplit ++ "account") [] (some acct) []]

/-- Sample transaction with two splits, posting to accounts A and P. -/
def c4TxnNode : XmlNode :=
  .mk (nsGnc ++ "transaction") [] none
    [.mk (nsTrn ++ "id") [] (some "T1") [],
     .mk (nsTrn ++ "currency") [] none
       [.mk (nsCmdty ++ "space") [] (some "ISO4217") [],
        .mk (nsCmdty ++ "id") [] (some "USD") []],
     .mk (nsTrn ++ "date-posted") [] none
       [.mk (nsTs ++ "date") [] (some "2020-01-01 00:00:00 +0000") []],
     .mk (nsTrn ++ "date-entered") [] none
       [.mk (nsTs ++ "date") [] (some "2020-01-01 00:00:00 +0000") []],
     .mk (nsTrn ++ "description") [] (some "sample") [],
     .mk (nsTrn ++ "splits") [] none
       [c4SplitNode "s1" "A", c4SplitNode "s2" "P"]]

def c4Out : List PAccount × List PTransaction × List PSplit :=
  (_transaction_from_tree (fun _ => some 0) c2CDict c2Ad c2Accs [] []
    c4TxnNode).toOption.getD ([], [], [])

def c4Accs : List PAccount := c4Out.1

def c4Txns : List PTransaction := c4Out.2.1

def c4Sps : List PSplit := c4Out.2.2

/-- C4 witness: the two-split sample transaction lands both splits in the
transaction's split list in source order, each split is registered in its
account's split list, and account split lists only grow by appending. -/
theorem gnucash_c4_witness :
    ∃ txn, c4Txns = [] ++ [txn] ∧
      txn.splits = List.range' 0 2 ∧
      (∀ s ∈ txn.splits, ∃ sp, c4Sps.get? s = some sp ∧ sp.transaction = 0 ∧
        ∃ a, c4Accs.get? sp.account = some a ∧ s ∈ a.splits) ∧
      (∀ k ak, c2Accs.get? k = some ak →
        ∃ ak' news, c4Accs.get? k = some ak' ∧ ak'.splits = ak.splits ++ news) := by
  have hvalid : ∀ g n, dget c2Ad g = some n → n < c2Accs.length := by
    intro g n h
    have hm := dget_mem_dvalues h
    have he : dvalues c2Ad = [0, 1, 2] := by rfl
    rw [he] at hm
    have hl : c2Accs.length = 3 := by rfl
    rw [hl]
    simp only [List.mem_cons, List.not_mem_nil, or_false] at hm
    omega
  have h : _transaction_from_tree (fun _ => some 0) c2CDict c2Ad c2Accs [] [] c4TxnNode
      = .ok (c4Accs, c4Txns, c4Sps) := by rfl
  exact gnucash_c4 hvalid h

theorem insOrd_eq {α : Type} (lt : α → α → Bool) (x : α) (l : List α) :
    insOrd lt x l =
      l.takeWhile (fun y => lt y x) ++ x :: l.dropWhile (fun y => lt y x) := by
  induction l with
  | nil => rfl
  | cons y ys ih =>
    rw [insOrd, List.takeWhile_cons, List.dropWhile_cons]
    cases hlt : lt y x
    · simp [hlt]
    · simp [hlt, ih]

theorem sublist_insOrd {α : Type} (lt : α → α → Bool) (x : α) (l : List α) :
    l.Sublist (insOrd lt x l) := by
  rw [insOrd_eq]
  conv_lhs => rw [← List.takeWhile_append_dropWhile (fun y => lt y x) l]
  exact List.Sublist.append_left
    (List.Sublist.cons x (List.Sublist.refl _)) _

theorem insOrd_perm {α : Type} (lt : α → α → Bool) (x : α) (l : List α) :
    (insOrd lt x l).Perm (x :: l) := by
  induction l with
  | nil => exact List.Perm.refl _
  | cons y ys ih =>
    have hres := insOrd_eq lt x (y :: ys)
    rw [insOrd]
    cases hlt : lt y x
    · simp
    · simp only [if_pos rfl]
      exact (ih.cons y).trans (List.Perm.swap x y ys)

theorem pySorted_perm {α : Type} (lt : α → α → Bool) (l : List α) :
    (pySorted lt l).Perm l := by
  induction l with
  | nil => exact List.Perm.refl _
  | cons a l ih => exact (insOrd_perm lt a (pySorted lt l)).trans (ih.cons a)

theorem insOrd_pairwise {α : Type} {lt : α → α → Bool}
    (htrans : ∀ a b c, lt b a = false → lt c b = false → lt c a = false)
    (hasymm : ∀ a b, lt a b = true → lt b a = false)
    (x : α) {l : List α} (hl : l.Pairwise (fun a b => lt b a = false)) :
    (insOrd lt x l).Pairwise (fun a b => lt b a = false) := by
  induction l with
  | nil => exact List.pairwise_singleton _ _
  | cons y ys ih =>
    rw [List.pairwise_cons] at hl
    obtain ⟨hy, hys⟩ := hl
    rw [insOrd]
    cases hlt : lt y x
    · have hres : (if false = true then y :: insOrd lt x ys else x :: y :: ys) =
          x :: y :: ys := rfl
      rw [hres]
      refine List.Pairwise.cons ?_ (List.Pairwise.cons hy hys)
      intro z hz
      rcases List.mem_cons.mp hz with rfl | hzys
      · exact hlt
      · exact htrans x y z hlt (hy z hzys)
    · have hres : (if true = true then y :: insOrd lt x ys else x :: y :: ys) =
          y :: insOrd lt x ys := rfl
      rw [hres]
      refine List.Pairwise.cons ?_ (ih hys)
      intro z hz
      have hz' := (insOrd_perm lt x ys).mem_iff.mp hz
      rcases List.mem_cons.mp hz' with rfl | hzys
      · exact hasymm y z hlt
      · exact hy z hzys

theorem pySorted_pairwise {α : Type} {lt : α → α → Bool}
    (htrans : ∀ a b c, lt b a = false → lt c b = false → lt c a = false)
    (hasymm : ∀ a b, lt a b = true → lt b a = false) (l : List α) :
    (pySorted lt l).Pairwise (fun a b => lt b a = false) := by
  induction l with
  | nil => exact List.Pairwise.nil
  | cons a l ih => exact insOrd_pairwise htrans hasymm a ih

theorem pySorted_stable {α : Type} {lt : α → α → Bool} (l : List α) :
    ∀ {s t : α}, lt t s = false → [s, t].Sublist l →
      [s, t].Sublist (pySorted lt l) := by
  induction l with
  | nil =>
    intro s t _ h
    cases h
  | cons a l ih =>
    intro s t hts h
    cases h with
    | cons _ h' =>
      exact (ih hts h').trans (sublist_insOrd lt a (pySorted lt l))
    | cons₂ _ h' =>
      have ht : t ∈ pySorted lt l :=
        (pySorted_perm lt l).mem_iff.mpr (List.singleton_sublist.mp h')
      show [a, t].Sublist (insOrd lt a (pySorted lt l))
      rw [insOrd_eq]
      have htd : t ∈ List.dropWhile (fun y => lt y a) (pySorted lt l) := by
        have hsplit := List.takeWhile_append_dropWhile (fun y => lt y a) (pySorted lt l)
        rcases List.mem_append.mp (show t ∈ _ ++ _ by rw [hsplit]; exact ht) with htk | htd
        · exact absurd (List.mem_takeWhile_imp htk) (by simp [hts])
        · exact htd
      have h1 : [a, t].Sublist (a :: List.dropWhile (fun y => lt y a) (pySorted lt l)) :=
        (List.singleton_sublist.mpr htd).cons₂ a
      exact h1.trans (List.sublist_append_right _ _)

/-- C6: `get_all_splits` concatenates the splits lists of every triple the
walk yields and stable-sorts the result by the splits' natural ordering:
the output is a permutation of the concatenation, it is ascending for the
split ordering, any two entries of the concatenation whose latter member is
not below the former keep their relative order (stability, which covers all
ties), and two splits tie in the ordering exactly when their owning
transactions' posting dates are equal, even for distinct splits. -/
theorem gnucash_c6 (bk : PBook) (i : Nat) :
    get_all_splits bk i =
      pySorted (splitLt bk) ((walk bk i).foldl (fun l trip => l ++ trip.2.2) []) ∧
    (get_all_splits bk i).Perm
      ((walk bk i).foldl (fun l trip => l ++ trip.2.2) []) ∧
    (get_all_splits bk i).Pairwise (fun a b => splitLt bk b a = false) ∧
    (∀ s t, splitLt bk t s = false →
      [s, t].Sublist ((walk bk i).foldl (fun l trip => l ++ trip.2.2) []) →
      [s, t].Sublist (get_all_splits bk i)) ∧
    (∀ s t, (splitLt bk s t = false ∧ splitLt bk t s = false) ↔
      txnDateOfSplit bk s = txnDateOfSplit bk t) := by
  have htrans : ∀ a b c, splitLt bk b a = false → splitLt bk c b = false →
      splitLt bk c a = false := by
    intro a b c h1 h2
    simp only [splitLt, decide_eq_false_iff_not, not_lt] at h1 h2 ⊢
    omega
  have hasymm : ∀ a b, splitLt bk a b = true → splitLt bk b a = false := by
    intro a b h
    simp only [splitLt, decide_eq_true_eq] at h
    simp only [splitLt, decide_eq_false_iff_not, not_lt]
    omega
  refine ⟨rfl, pySorted_perm _ _, pySorted_pairwise htrans hasymm _,
    fun s t hts hsub => pySorted_stable _ hts hsub, ?_⟩
  intro s t
  simp only [splitLt, decide_eq_false_iff_not, not_lt]
  omega

def c6Split (t : Nat) : PSplit := ⟨none, none, none, none, 0, 0, 0, t, dempty⟩

def c6Txn (d : Int) : PTransaction := ⟨none, 0, d, 0, none, [], dempty⟩

/-- Sample store: one account holding three splits whose transactions post
on dates 5, 3 and 5 — splits 0 and 2 tie in the ordering. -/
def c6Book : PBook :=
  ⟨none, some 0, [],
   [⟨none, none, none, none, none, [], none, none, [0, 1, 2], dempty⟩],
   [c6Txn 5, c6Txn 3, c6Txn 5],
   [c6Split 0, c6Split 1, c6Split 2], dempty⟩

/-- C6 witness: on the sample store the sort puts the date-3 split first
and keeps the two date-5 splits (a genuine tie between distinct splits) in
their original relative order. -/
theorem gnucash_c6_witness :
    get_all_splits c6Book 0 = [1, 0, 2] ∧
    [0, 2].Sublist (get_all_splits c6Book 0) ∧
    (splitLt c6Book 0 2 = false ∧ splitLt c6Book 2 0 = false) :=
  ⟨by decide, (gnucash_c6 c6Book 0).2.2.2.1 0 2 (by decide) (by decide),
   ((gnucash_c6 c6Book 0).2.2.2.2 0 2).mpr (by decide)⟩

theorem matchesTree_elim {bk : PBook} {t : AccTree} (h : matchesTree bk t = true) :
    ∃ a, bk.accounts.get? t.rootId = some a ∧ a.children = t.subs.map AccTree.rootId ∧
      matchesForest bk t.subs = true := by
  cases t with
  | node i cs =>
    rw [matchesTree] at h
    cases hg : bk.accounts.get? i with
    | none =>
      rw [hg] at h
      exact Bool.noConfusion h
    | some a =>
      simp only [hg, Bool.and_eq_true, beq_iff_eq] at h
      exact ⟨a, hg, h.1, h.2⟩

theorem childIdsOf_of_matches {bk : PBook} {t : AccTree} (h : matchesTree bk t = true) :
    childIdsOf bk t.rootId = t.subs.map AccTree.rootId := by
  obtain ⟨a, hg, hc, _⟩ := matchesTree_elim h
  rw [childIdsOf, hg]
  simpa using hc

theorem matchesForest_cons_elim {bk : PBook} {t : AccTree} {ts : List AccTree}
    (h : matchesForest bk (t :: ts) = true) :
    matchesTree bk t = true ∧ matchesForest bk ts = true := by
  rw [matchesForest, Bool.and_eq_true] at h
  exact h

theorem matchesForest_append {bk : PBook} :
    ∀ {q r : List AccTree}, matchesForest bk q = true → matchesForest bk r = true →
      matchesForest bk (q ++ r) = true := by
  intro q
  induction q with
  | nil => intro r _ hr; exact hr
  | cons t ts ih =>
    intro r hq hr
    obtain ⟨ht, hts⟩ := matchesForest_cons_elim hq
    show matchesForest bk (t :: (ts ++ r)) = true
    rw [matchesForest, Bool.and_eq_true]
    exact ⟨ht, ih hts hr⟩

theorem nextLevel_nil : nextLevel [] = [] := rfl

theorem iterLevel_nil : ∀ k, iterLevel k ([] : List AccTree) = []
  | 0 => rfl
  | k + 1 => iterLevel_nil k

theorem nextLevel_iterLevel (k : Nat) :
    ∀ q : List AccTree, nextLevel (iterLevel k q) = iterLevel k (nextLevel q) := by
  induction k with
  | zero => intro q; rfl
  | succ k ih => intro q; exact ih (nextLevel q)

theorem iterLevel_add (a : Nat) :
    ∀ (b : Nat) (q : List AccTree), iterLevel (a + b) q = iterLevel a (iterLevel b q) := by
  intro b
  induction b with
  | zero => intro q; rfl
  | succ b ih =>
    intro q
    show iterLevel (a + b + 1) q = iterLevel a (iterLevel b (nextLevel q))
    rw [← ih (nextLevel q)]
    rfl

theorem mem_nextLevel {t c : AccTree} {q : List AccTree} (ht : t ∈ q) (hc : c ∈ t.subs) :
    c ∈ nextLevel q :=
  List.mem_flatMap.mpr ⟨t, ht, hc⟩

theorem subs_sublist_nextLevel {t : AccTree} : ∀ {q : List AccTree}, t ∈ q →
    t.subs.Sublist (nextLevel q) := by
  intro q
  induction q with
  | nil => intro h; exact absurd h (List.not_mem_nil _)
  | cons s ss ih =>
    intro h
    rcases List.mem_cons.mp h with rfl | hm
    · exact List.sublist_append_left _ _
    · exact (ih hm).trans (List.sublist_append_right _ _)

theorem subtree_level {r s : AccTree} (h : SubtreeIn r s) :
    ∀ q : List AccTree, r ∈ q → ∃ k, s ∈ iterLevel k q := by
  induction h with
  | refl t => exact fun q hq => ⟨0, hq⟩
  | step hc _ ih =>
    intro q hq
    obtain ⟨k, hk⟩ := ih (nextLevel q) (mem_nextLevel hq hc)
    exact ⟨k + 1, hk⟩

theorem idsBFS_append_front :
    ∀ (C X : List AccTree), idsBFS (C ++ X) =
      C.map AccTree.rootId ++ idsBFS (X ++ nextLevel C) := by
  intro C
  induction C with
  | nil =>
    intro X
    rw [List.nil_append, List.map_nil, List.nil_append, nextLevel_nil, List.append_nil]
  | cons t C ih =>
    intro X
    show idsBFS (t :: (C ++ X)) = _
    rw [idsBFS]
    rw [List.append_assoc, ih (X ++ t.subs)]
    show t.rootId :: (C.map AccTree.rootId ++ idsBFS ((X ++ t.subs) ++ nextLevel C)) = _
    rw [List.append_assoc]
    have hnl : nextLevel (t :: C) = t.subs ++ nextLevel C := by
      rw [nextLevel, List.flatMap_cons]
      rfl
    rw [hnl]
    rfl

theorem idsBFS_eq_levelsFlat : ∀ q : List AccTree, idsBFS q = levelsFlat q
  | [] => by rw [idsBFS, levelsFlat]
  | t :: ts => by
    have h1 : idsBFS (t :: ts) =
        (t :: ts).map AccTree.rootId ++ idsBFS (nextLevel (t :: ts)) := by
      have := idsBFS_append_front (t :: ts) []
      rw [List.append_nil, List.nil_append] at this
      exact this
    rw [h1, idsBFS_eq_levelsFlat (nextLevel (t :: ts)), levelsFlat]
termination_by q => (forestIds q).length
decreasing_by
  have h := forestIds_length_eq (t :: ts)
  simp only [List.length_cons] at h
  omega

theorem idsBFS_perm : ∀ q : List AccTree, (idsBFS q).Perm (forestIds q)
  | [] => by
    rw [idsBFS, forestIds]
  | t :: ts => by
    rw [idsBFS]
    have ih := idsBFS_perm (ts ++ t.subs)
    rw [forestIds_append] at ih
    cases t with
    | node i cs =>
      show (i :: idsBFS (ts ++ (AccTree.node i cs).subs)).Perm _
      refine (ih.cons i).trans ?_
      show (i :: (forestIds ts ++ forestIds cs)).Perm (forestIds (AccTree.node i cs :: ts))
      have : forestIds (AccTree.node i cs :: ts) = (i :: forestIds cs) ++ forestIds ts := by
        rw [forestIds, treeIds]
      rw [this]
      exact (List.perm_append_comm.cons i).trans (List.Perm.refl _)
termination_by q => (forestIds q).length
decreasing_by
  cases t with
  | node i cs =>
    simp only [forestIds, treeIds, AccTree.subs, forestIds_append, List.length_append,
      List.length_cons]
    omega

theorem levelsFlat_cons_eq (t : AccTree) (ts : List AccTree) :
    levelsFlat (t :: ts) =
      (t :: ts).map AccTree.rootId ++ levelsFlat (nextLevel (t :: ts)) := by
  rw [levelsFlat]

theorem mem_level_levelsFlat :
    ∀ (k : Nat) (q : List AccTree) (x : Nat),
      x ∈ (iterLevel k q).map AccTree.rootId → x ∈ levelsFlat q := by
  intro k
  induction k with
  | zero =>
    intro q x hx
    cases q with
    | nil => exact absurd hx (List.not_mem_nil _)
    | cons t ts =>
      rw [levelsFlat_cons_eq]
      exact List.mem_append_left _ hx
  | succ k ih =>
    intro q x hx
    cases q with
    | nil =>
      rw [show iterLevel (k + 1) ([] : List AccTree) = [] from iterLevel_nil _] at hx
      exact absurd hx (List.not_mem_nil _)
    | cons t ts =>
      rw [levelsFlat_cons_eq]
      exact List.mem_append_right _ (ih (nextLevel (t :: ts)) x hx)

theorem sublist_level_levelsFlat :
    ∀ (k : Nat) (q : List AccTree) (l : List Nat),
      l.Sublist ((iterLevel k q).map AccTree.rootId) → l.Sublist (levelsFlat q) := by
  intro k
  induction k with
  | zero =>
    intro q l hl
    cases q with
    | nil =>
      rw [show levelsFlat ([] : List AccTree) = [] from by rw [levelsFlat]]
      exact hl
    | cons t ts =>
      rw [levelsFlat_cons_eq]
      exact hl.trans (List.sublist_append_left _ _)
  | succ k ih =>
    intro q l hl
    cases q with
    | nil =>
      rw [show iterLevel (k + 1) ([] : List AccTree) = [] from iterLevel_nil _] at hl
      rw [show levelsFlat ([] : List AccTree) = [] from by rw [levelsFlat]]
      exact hl
    | cons t ts =>
      rw [levelsFlat_cons_eq]
      exact (ih (nextLevel (t :: ts)) l hl).trans (List.sublist_append_right _ _)

theorem cross_level_sublist :
    ∀ (k : Nat) (d : Nat) (q : List AccTree) (x y : Nat),
      x ∈ (iterLevel k q).map AccTree.rootId →
      y ∈ (iterLevel (k + d + 1) q).map AccTree.rootId →
      [x, y].Sublist (levelsFlat q) := by
  intro k
  induction k with
  | zero =>
    intro d q x y hx hy
    cases q with
    | nil => exact absurd hx (List.not_mem_nil _)
    | cons t ts =>
      rw [levelsFlat_cons_eq]
      have hx1 : [x].Sublist ((t :: ts).map AccTree.rootId) :=
        List.singleton_sublist.mpr hx
      have hy1 : [y].Sublist (levelsFlat (nextLevel (t :: ts))) := by
        refine List.singleton_sublist.mpr (mem_level_levelsFlat d _ y ?_)
        rw [show (0 : Nat) + d + 1 = d + 1 from by omega] at hy
        exact hy
      exact List.Sublist.append hx1 hy1
  | succ k ih =>
    intro d q x y hx hy
    cases q with
    | nil =>
      rw [show iterLevel (k + 1) ([] : List AccTree) = [] from iterLevel_nil _] at hx
      exact absurd hx (List.not_mem_nil _)
    | cons t ts =>
      rw [levelsFlat_cons_eq]
      refine List.Sublist.trans ?_ (List.sublist_append_right _ _)
      refine ih d (nextLevel (t :: ts)) x y hx ?_
      rw [show k + 1 + d + 1 = k + d + 1 + 1 from by omega] at hy
      exact hy

theorem lt_of_get?_some {α : Type} {l : List α} {n : Nat} {a : α}
    (h : l.get? n = some a) : n < l.length := by
  by_contra hh
  rw [List.get?_eq_none.mpr (Nat.le_of_not_lt hh)] at h
  exact Option.noConfusion h

theorem length_le_of_nodup_lt {l : List Nat} {n : Nat} (hnd : l.Nodup)
    (hb : ∀ x ∈ l, x < n) : l.length ≤ n := by
  have hsub : l.toFinset ⊆ Finset.range n :=
    fun x hx => Finset.mem_range.mpr (hb x (List.mem_toFinset.mp hx))
  have hcard := Finset.card_le_card hsub
  rw [Finset.card_range, List.toFinset_card_of_nodup hnd] at hcard
  exact hcard

theorem forestIds_lt (bk : PBook) : ∀ (q : List AccTree),
    matchesForest bk q = true → ∀ x ∈ forestIds q, x < bk.accounts.length
  | [] => by
    intro _ x hx
    rw [forestIds] at hx
    exact absurd hx (List.not_mem_nil _)
  | t :: ts => by
    intro hm x hx
    obtain ⟨ht, hts⟩ := matchesForest_cons_elim hm
    obtain ⟨a, hg, _, hsubs⟩ := matchesTree_elim ht
    rw [forestIds] at hx
    rcases List.mem_append.mp hx with hx1 | hx2
    · cases t with
      | node i cs =>
        rw [treeIds] at hx1
        rcases List.mem_cons.mp hx1 with rfl | hxc
        · exact lt_of_get?_some hg
        · exact forestIds_lt bk cs hsubs x hxc
    · exact forestIds_lt bk ts hts x hx2
termination_by q => sizeOf q
decreasing_by
  all_goals simp
  all_goals try omega

theorem walkAux_eq_idsBFS (bk : PBook) :
    ∀ (fuel : Nat) (q : List AccTree), matchesForest bk q = true →
      (forestIds q).length ≤ fuel →
      walkAux bk fuel (q.map AccTree.rootId) =
        (idsBFS q).map (fun a => (a, childIdsOf bk a, splitIdsOf bk a)) := by
  intro fuel
  induction fuel with
  | zero =>
    intro q hm hf
    cases q with
    | nil =>
      rw [idsBFS]
      rfl
    | cons t ts =>
      exfalso
      cases t with
      | node i cs => simp [forestIds, treeIds] at hf
  | succ fuel ih =>
    intro q hm hf
    cases q with
    | nil =>
      rw [idsBFS]
      rfl
    | cons t ts =>
      obtain ⟨ht, hts⟩ := matchesForest_cons_elim hm
      obtain ⟨a, hg, hc, hsubs⟩ := matchesTree_elim ht
      have hchild := childIdsOf_of_matches ht
      have hlen : (forestIds (ts ++ t.subs)).length ≤ fuel := by
        cases t with
        | node i cs =>
          simp only [forestIds, treeIds, forestIds_append, List.length_append,
            List.length_cons, AccTree.subs] at hf ⊢
          omega
      show walkAux bk (fuel + 1) (t.rootId :: ts.map AccTree.rootId) = _
      rw [walkAux]
      rw [hchild, ← List.map_append]
      rw [ih (ts ++ t.subs) (matchesForest_append hts hsubs) hlen]
      rw [← hchild]
      rw [idsBFS]
      rfl

/-- C7: on a store whose children graph below the walked account is the
finite tree `T` (with distinct account ids), `walk` yields the finite
breadth-first sequence of (account, children-snapshot, splits) triples of
that subtree: the ids visited are exactly the subtree's accounts, each
once; every triple carries the account's current children list and splits
list; every account appears before each of its proper descendants; and
subtree children (siblings) appear in child-list order. -/
theorem gnucash_c7 (bk : PBook) (T : AccTree)
    (hm : matchesTree bk T = true) (hnd : (treeIds T).Nodup) :
    walk bk T.rootId =
      (idsBFS [T]).map (fun a => (a, childIdsOf bk a, splitIdsOf bk a)) ∧
    ((walk bk T.rootId).map (fun trip => trip.1)).Perm (treeIds T) ∧
    ((walk bk T.rootId).map (fun trip => trip.1)).Nodup ∧
    (∀ trip ∈ walk bk T.rootId,
      trip = (trip.1, childIdsOf bk trip.1, splitIdsOf bk trip.1)) ∧
    (∀ x y, ProperDescIn T x y →
      [x, y].Sublist ((walk bk T.rootId).map (fun trip => trip.1))) ∧
    (∀ s x y, SubtreeIn T s → [x, y].Sublist (s.subs.map AccTree.rootId) →
      [x, y].Sublist ((walk bk T.rootId).map (fun trip => trip.1))) := by
  have hmf : matchesForest bk [T] = true := by
    show matchesForest bk (T :: []) = true
    rw [matchesForest, Bool.and_eq_true]
    exact ⟨hm, by rw [matchesForest]⟩
  have hfidT : forestIds [T] = treeIds T := by
    show forestIds (T :: []) = treeIds T
    rw [forestIds, forestIds, List.append_nil]
  have hlen : (forestIds [T]).length ≤ bk.accounts.length := by
    rw [hfidT]
    refine length_le_of_nodup_lt hnd ?_
    intro x hx
    refine forestIds_lt bk [T] hmf x ?_
    rw [hfidT]
    exact hx
  have hW : walk bk T.rootId =
      (idsBFS [T]).map (fun a => (a, childIdsOf bk a, splitIdsOf bk a)) := by
    have h := walkAux_eq_idsBFS bk bk.accounts.length [T] hmf hlen
    rw [walk]
    exact h
  have hids : (walk bk T.rootId).map (fun trip => trip.1) = idsBFS [T] := by
    rw [hW, List.map_map]
    exact List.map_id _
  have hperm : ((walk bk T.rootId).map (fun trip => trip.1)).Perm (treeIds T) := by
    rw [hids]
    exact hfidT ▸ idsBFS_perm [T]
  refine ⟨hW, hperm, hperm.nodup_iff.mpr hnd, ?_, ?_, ?_⟩
  · intro trip htrip
    rw [hW] at htrip
    obtain ⟨a, _, rfl⟩ := List.mem_map.mp htrip
    rfl
  · intro x y hdesc
    obtain ⟨s, hsub, hrx, c, hcmem, s', hsub', hry⟩ := hdesc
    obtain ⟨k, hks⟩ := subtree_level hsub [T] (List.mem_singleton_self T)
    have hc1 : c ∈ iterLevel (k + 1) [T] := by
      have h := mem_nextLevel hks hcmem
      rw [nextLevel_iterLevel] at h
      exact h
    obtain ⟨d, hd⟩ := subtree_level hsub' (iterLevel (k + 1) [T]) hc1
    have hxm : x ∈ (iterLevel k [T]).map AccTree.rootId := by
      rw [← hrx]
      exact List.mem_map_of_mem _ hks
    have hym : y ∈ (iterLevel (k + d + 1) [T]).map AccTree.rootId := by
      rw [← hry]
      refine List.mem_map_of_mem _ ?_
      rw [show k + d + 1 = d + (k + 1) from by omega, iterLevel_add]
      exact hd
    have h := cross_level_sublist k d [T] x y hxm hym
    rw [hids, idsBFS_eq_levelsFlat]
    exact h
  · intro s x y hsub hxy
    obtain ⟨k, hks⟩ := subtree_level hsub [T] (List.mem_singleton_self T)
    have h1 : (s.subs.map AccTree.rootId).Sublist
        ((iterLevel (k + 1) [T]).map AccTree.rootId) := by
      refine List.Sublist.map _ ?_
      have h := subs_sublist_nextLevel hks
      rw [nextLevel_iterLevel] at h
      exact h
    have h2 := sublist_level_levelsFlat (k + 1) [T] [x, y] (hxy.trans h1)
    rw [hids, idsBFS_eq_levelsFlat]
    exact h2

/-- Sample store: account 0 has children 1 and 2, account 1 has child 3. -/
def c7Book : PBook :=
  ⟨none, some 0, [],
   [⟨none, none, none, none, none, [1, 2], none, none, [10], dempty⟩,
    ⟨none, none, none, none, none, [3], none, none, [11], dempty⟩,
    ⟨none, none, none, none, none, [], none, none, [12], dempty⟩,
    ⟨none, none, none, none, none, [], none, none, [13], dempty⟩],
   [], [], dempty⟩

/-- Tree witness for the children graph of `c7Book` below account 0. -/
def c7Tree : AccTree :=
  .node 0 [.node 1 [.node 3 []], .node 2 []]

/-- C7 witness: walking the sample store from account 0 visits exactly its
four accounts, the root before its grandchild 3, and siblings 1, 2 in
child-list order. -/
theorem gnucash_c7_witness :
    ((walk c7Book 0).map (fun trip => trip.1)).Perm (treeIds c7Tree) ∧
    [0, 3].Sublist ((walk c7Book 0).map (fun trip => trip.1)) ∧
    [1, 2].Sublist ((walk c7Book 0).map (fun trip => trip.1)) := by
  have hm : matchesTree c7Book c7Tree = true := by decide
  have hnd : (treeIds c7Tree).Nodup := by decide
  have h := gnucash_c7 c7Book c7Tree hm hnd
  refine ⟨h.2.1, h.2.2.2.2.1 0 3 ?_, h.2.2.2.2.2 c7Tree 1 2 (.refl _) ?_⟩
  · refine ⟨c7Tree, .refl _, rfl, .node 1 [.node 3 []], ?_, .node 3 [], ?_, rfl⟩
    · exact List.mem_cons_self _ _
    · exact SubtreeIn.step (List.mem_cons_self _ _) (.refl _)
  · decide
